import Mathlib

/-!
Verification of the lab0-c queue (`src/queue.c`).

A shallow embedding of the linked-list queue of `src/queue.c` over Lean lists,
together with proofs about the queue operations.

Modelling conventions:
* A present queue is a `List String` of the payloads in ring order
  (`head->next` first); an absent queue (`NULL` container) is `none` in an
  `Option (List String)`.
* `strcmp(a, b) < 0` is modelled by `a < b` on `String` (lexicographic by
  character; UTF-8 byte order agrees with code-point order, so this is the
  byte-wise comparison `strcmp` performs on the stored C strings).
* `strcmp(a, b) == 0` is modelled by `a == b`.
* Link-level facts (the `next`/`prev` ring) are modelled by cycles of node
  ids (`List Nat` with the sentinel in front) and explicit successor and
  predecessor functions; see the ring section below.
-/

/-- Model of `strcmp(a, b) < 0` from `queue.c` (used at `queue.c:342`). -/
def strLt (a b : String) : Bool := decide (a < b)

/-- The slow/fast scan of `mergesort` (`queue.c:324-326`): starting with
`flag = start`, while `flag->next && flag->next->next` holds, `flag` advances
two nodes and `mid` advances one.  `midSteps l` is the number of iterations
performed on the NUL-terminated forward chain `l`; the split point is
`mid = midSteps l` (0-based), so the left part has `midSteps l + 1` nodes. -/
def midSteps {α : Type} : List α → Nat
  | _ :: _ :: c :: rest => midSteps (c :: rest) + 1
  | _ => 0

theorem midSteps_eq {α : Type} (l : List α) : midSteps l = (l.length - 1) / 2 := by
  match l with
  | [] => simp [midSteps]
  | [a] => simp [midSteps]
  | [a, b] => simp [midSteps]
  | a :: b :: c :: rest =>
    have ih := midSteps_eq (c :: rest)
    simp only [midSteps, ih, List.length_cons]
    omega

/-- The merge loop of `mergesort` (`queue.c:337-346`): while both runs are
non-empty, take the left head if `strcmp(l->value, r->value) < 0`, otherwise
(including ties) take the right head; then append the non-empty leftover. -/
def mergeRun {α : Type} (lt : α → α → Bool) (l r : List α) : List α :=
  match l, r with
  | [], r => r
  | l, [] => l
  | a :: l, b :: r =>
    if lt a b then a :: mergeRun lt l (b :: r)
    else b :: mergeRun lt (a :: l) r
termination_by l.length + r.length

/-- Function `mergesort` of `queue.c:317-349` on the detached forward chain: a chain
with fewer than two nodes is returned as is (`start == end`); otherwise the
chain is split after `midSteps l + 1` nodes (the slow/fast scan), both halves
are sorted recursively and merged by `mergeRun`. -/
def mergesortRun {α : Type} (lt : α → α → Bool) (l : List α) : List α :=
  match l with
  | [] => []
  | [a] => [a]
  | a :: b :: rest =>
    mergeRun lt
      (mergesortRun lt ((a :: b :: rest).take (midSteps (a :: b :: rest) + 1)))
      (mergesortRun lt ((a :: b :: rest).drop (midSteps (a :: b :: rest) + 1)))
termination_by l.length
decreasing_by
  · simp only [List.length_take, List.length_cons, midSteps_eq]
    omega
  · simp only [List.length_drop, List.length_cons, midSteps_eq]
    omega

/-- Function `q_sort` of `queue.c:356-374` on a present queue: with fewer than two
elements (`head->prev == head->next`) it does nothing, otherwise it detaches
the ring into a forward chain, runs `mergesort` with the `strcmp` comparator
and re-closes the ring. -/
def q_sortL (l : List String) : List String :=
  match l with
  | [] => []
  | [a] => [a]
  | a :: b :: rest => mergesortRun strLt (a :: b :: rest)

/-- Variant of `q_sort` including the `!head` (absent container) guard. -/
def q_sortO : Option (List String) → Option (List String)
  | none => none
  | some l => some (q_sortL l)

theorem mergeRun_perm {α : Type} (lt : α → α → Bool) (l r : List α) :
    List.Perm (mergeRun lt l r) (l ++ r) := by
  match l, r with
  | [], r => simp [mergeRun]
  | a :: l, [] => simp [mergeRun]
  | a :: l, b :: r =>
    simp only [mergeRun]
    by_cases h : lt a b = true
    · simpa [h] using (mergeRun_perm lt l (b :: r)).cons a
    · simp only [h, if_false, Bool.false_eq_true]
      exact ((mergeRun_perm lt (a :: l) r).cons b).trans List.perm_middle.symm
termination_by l.length + r.length

theorem mem_mergeRun {α : Type} {lt : α → α → Bool} {l r : List α} {x : α}
    (hx : x ∈ mergeRun lt l r) : x ∈ l ∨ x ∈ r := by
  have := (mergeRun_perm lt l r).mem_iff.mp hx
  simpa using this

theorem mergeRun_sorted {α β : Type} [LinearOrder β] (k : α → β)
    (lt : α → α → Bool) (hlt : ∀ a b, lt a b = true ↔ k a < k b) (l r : List α)
    (hl : List.Sorted (fun a b => k a ≤ k b) l)
    (hr : List.Sorted (fun a b => k a ≤ k b) r) :
    List.Sorted (fun a b => k a ≤ k b) (mergeRun lt l r) := by
  match l, r with
  | [], r => simpa [mergeRun] using hr
  | a :: l, [] => simpa [mergeRun] using hl
  | a :: l, b :: r =>
    simp only [mergeRun]
    rw [List.sorted_cons] at hl hr
    by_cases h : lt a b = true
    · simp only [h, if_true]
      rw [List.sorted_cons]
      refine ⟨?_, mergeRun_sorted k lt hlt l (b :: r) hl.2 (List.sorted_cons.mpr hr)⟩
      intro x hx
      rcases mem_mergeRun hx with hxl | hxr
      · exact hl.1 x hxl
      · rcases List.mem_cons.mp hxr with rfl | hxr
        · exact le_of_lt ((hlt a x).mp h)
        · exact le_trans (le_of_lt ((hlt a b).mp h)) (hr.1 x hxr)
    · simp only [h, if_false, Bool.false_eq_true]
      rw [List.sorted_cons]
      refine ⟨?_, mergeRun_sorted k lt hlt (a :: l) r (List.sorted_cons.mpr hl) hr.2⟩
      intro x hx
      have hba : k b ≤ k a := by
        have := (hlt a b).not.mp (by simpa using h)
        exact le_of_not_lt this
      rcases mem_mergeRun hx with hxl | hxr
      · rcases List.mem_cons.mp hxl with rfl | hxl
        · exact hba
        · exact le_trans hba (hl.1 x hxl)
      · exact hr.1 x hxr
termination_by l.length + r.length

theorem mergesortRun_perm {α : Type} (lt : α → α → Bool) (l : List α) :
    List.Perm (mergesortRun lt l) l := by
  match l with
  | [] => simp [mergesortRun]
  | [a] => simp [mergesortRun]
  | a :: b :: rest =>
    simp only [mergesortRun]
    have h1 := mergesortRun_perm lt ((a :: b :: rest).take (midSteps (a :: b :: rest) + 1))
    have h2 := mergesortRun_perm lt ((a :: b :: rest).drop (midSteps (a :: b :: rest) + 1))
    have h3 := mergeRun_perm lt
      (mergesortRun lt ((a :: b :: rest).take (midSteps (a :: b :: rest) + 1)))
      (mergesortRun lt ((a :: b :: rest).drop (midSteps (a :: b :: rest) + 1)))
    refine h3.trans ((h1.append h2).trans ?_)
    rw [List.take_append_drop]
termination_by l.length
decreasing_by
  · simp only [List.length_take, List.length_cons, midSteps_eq]
    omega
  · simp only [List.length_drop, List.length_cons, midSteps_eq]
    omega

theorem mergesortRun_sorted {α β : Type} [LinearOrder β] (k : α → β)
    (lt : α → α → Bool) (hlt : ∀ a b, lt a b = true ↔ k a < k b) (l : List α) :
    List.Sorted (fun a b => k a ≤ k b) (mergesortRun lt l) := by
  match l with
  | [] => simp [mergesortRun]
  | [a] => simp [mergesortRun]
  | a :: b :: rest =>
    simp only [mergesortRun]
    exact mergeRun_sorted k lt hlt _ _
      (mergesortRun_sorted k lt hlt ((a :: b :: rest).take (midSteps (a :: b :: rest) + 1)))
      (mergesortRun_sorted k lt hlt ((a :: b :: rest).drop (midSteps (a :: b :: rest) + 1)))
termination_by l.length
decreasing_by
  · simp only [List.length_take, List.length_cons, midSteps_eq]
    omega
  · simp only [List.length_drop, List.length_cons, midSteps_eq]
    omega

/-- C3: `q_sort` leaves the payload sequence a permutation of the original,
sorted ascending by the `strcmp` order; `["b", "a", "b", "c"]` becomes
`["a", "b", "b", "c"]`; absent, empty and single-element queues are left
unchanged. -/
theorem q_sort_sorts :
    (∀ l : List String, List.Perm (q_sortL l) l ∧ List.Sorted (· ≤ ·) (q_sortL l)) ∧
    q_sortL ["b", "a", "b", "c"] = ["a", "b", "b", "c"] ∧
    (∀ l : List String, l.length ≤ 1 → q_sortL l = l) ∧
    q_sortO none = none := by
  have hlt : ∀ a b : String, strLt a b = true ↔ id a < id b := by
    intro a b; simp [strLt]
  refine ⟨?_, ?_, ?_, rfl⟩
  · intro l
    match l with
    | [] => exact ⟨by simp [q_sortL], by simp [q_sortL]⟩
    | [a] => exact ⟨by simp [q_sortL], by simp [q_sortL]⟩
    | a :: b :: rest =>
      constructor
      · exact mergesortRun_perm strLt (a :: b :: rest)
      · exact mergesortRun_sorted (id : String → String) strLt hlt (a :: b :: rest)
  · simp +decide [q_sortL, mergesortRun, midSteps, mergeRun, strLt]
  · intro l hl
    match l with
    | [] => rfl
    | [a] => rfl
    | a :: b :: rest => simp at hl

theorem q_sort_sorts_witness : q_sortL ["a"] = ["a"] :=
  q_sort_sorts.2.2.1 ["a"] (by decide)

/-- Payloads tagged with a node identity, for tracking how `q_sort` moves
equal strings.  The comparator only looks at the payload, exactly like
`strcmp(l->value, r->value)` at `queue.c:342`. -/
def strPairLt (a b : String × Nat) : Bool := strLt a.1 b.1

/-- Function `q_sort` acting on identity-tagged payloads (same algorithm as `q_sortL`,
the tag is invisible to the comparator). -/
def q_sortT (l : List (String × Nat)) : List (String × Nat) :=
  match l with
  | [] => []
  | [a] => [a]
  | a :: b :: rest => mergesortRun strPairLt (a :: b :: rest)

/-- C2 counterexample: on `["b", "a", "b", "c"]` (tags 0..3) the two `"b"`
elements come back in the order tag 2, tag 0 — the opposite of their original
relative order, so the sort is not stable as the claim states. -/
theorem q_sort_unstable_cex :
    q_sortT [("b", 0), ("a", 1), ("b", 2), ("c", 3)]
        = [("a", 1), ("b", 2), ("b", 0), ("c", 3)] ∧
    q_sortT [("b", 0), ("a", 1), ("b", 2), ("c", 3)]
        ≠ [("a", 1), ("b", 0), ("b", 2), ("c", 3)] := by
  have h : q_sortT [("b", 0), ("a", 1), ("b", 2), ("c", 3)]
      = [("a", 1), ("b", 2), ("b", 0), ("c", 3)] := by
    simp +decide [q_sortT, mergesortRun, midSteps, mergeRun, strPairLt, strLt]
  exact ⟨h, by rw [h]; decide⟩

/-- C2 amended: when the merge step compares two strings that are not in
strict `<` order — in particular two equal strings — it takes the node from
the right/second run first (`strcmp(l->value, r->value) < 0 ? &left : &right`
at `queue.c:342`), so the sort is not stable: for `["b", "a", "b", "c"]` the
two `"b"` elements end up in reversed relative order. -/
theorem mergeRun_right_on_tie :
    (∀ (a b : String × Nat) (l r : List (String × Nat)), ¬ a.1 < b.1 →
        mergeRun strPairLt (a :: l) (b :: r) = b :: mergeRun strPairLt (a :: l) r) ∧
    q_sortT [("b", 0), ("a", 1), ("b", 2), ("c", 3)]
        = [("a", 1), ("b", 2), ("b", 0), ("c", 3)] := by
  constructor
  · intro a b l r h
    simp only [mergeRun]
    simp [strPairLt, strLt, h]
  · simp +decide [q_sortT, mergesortRun, midSteps, mergeRun, strPairLt, strLt]

theorem mergeRun_right_on_tie_witness :
    mergeRun strPairLt [("b", 0)] [("b", 2)] = ("b", 2) :: mergeRun strPairLt [("b", 0)] [] :=
  mergeRun_right_on_tie.1 ("b", 0) ("b", 2) [] [] (lt_irrefl "b")

/-- The two-pointer scan of `q_delete_mid` (`queue.c:208-212`): `ptr` starts at
0-based index `i` and `rev` at index `j`; while `rev != ptr` and
`rev != ptr->next` (that is `j ≠ i` and `j ≠ i + 1`), `ptr` advances and `rev`
retreats.  Returns the index at which the loop stops.  (The loop is only ever
entered with `i ≤ j`; `j ≤ i` is used as the first exit test so that the
function is total.) -/
def midWalk (i j : Nat) : Nat :=
  if j ≤ i ∨ j = i + 1 then i else midWalk (i + 1) (j - 1)
termination_by j - i
decreasing_by omega

theorem midWalk_eq (i j : Nat) (h : i ≤ j) : midWalk i j = i + (j - i) / 2 := by
  unfold midWalk
  split
  · omega
  · rw [midWalk_eq (i + 1) (j - 1) (by omega)]
    omega
termination_by j - i

/-- Function `q_delete_mid` (`queue.c:200-223`) on a present queue: `none` models the
`false` return on an empty ring; otherwise the node where the two-pointer scan
stops is unlinked and freed. -/
def q_delete_midL (l : List String) : Option (List String) :=
  match l with
  | [] => none
  | x :: xs => some ((x :: xs).eraseIdx (midWalk 0 xs.length))

/-- Variant of `q_delete_mid` including the `!head` (absent container) guard; the `Bool`
is the return value of the C function. -/
def q_delete_midO : Option (List String) → Bool × Option (List String)
  | none => (false, none)
  | some l =>
    match q_delete_midL l with
    | none => (false, some l)
    | some l2 => (true, some l2)

/-- C1 (what the code actually does): `q_delete_mid` deletes the node at
0-based index `⌊(n-1)/2⌋`, not `⌊n/2⌋`; on the six-element input it removes
index 2 (the `"c"`), not index 3 (the `"d"`), contradicting the doc comment of the function itself (`queue.c:193-196`).  It returns false exactly on an absent or
empty container. -/
theorem q_delete_mid_deletes_lower_mid :
    (∀ (x : String) (xs : List String),
        q_delete_midL (x :: xs) = some ((x :: xs).eraseIdx (((x :: xs).length - 1) / 2))) ∧
    q_delete_midL ["a", "b", "c", "d", "e", "f"] = some ["a", "b", "d", "e", "f"] ∧
    q_delete_midL ["a", "b", "c", "d", "e", "f"] ≠ some ["a", "b", "c", "e", "f"] ∧
    q_delete_midO none = (false, none) ∧ q_delete_midO (some []) = (false, some []) := by
  have hmid : ∀ (x : String) (xs : List String),
      q_delete_midL (x :: xs) = some ((x :: xs).eraseIdx (((x :: xs).length - 1) / 2)) := by
    intro x xs
    show some ((x :: xs).eraseIdx (midWalk 0 xs.length)) = _
    rw [midWalk_eq 0 xs.length (Nat.zero_le _)]
    simp
  have h6 : q_delete_midL ["a", "b", "c", "d", "e", "f"] = some ["a", "b", "d", "e", "f"] := by
    rw [hmid "a" ["b", "c", "d", "e", "f"]]
    decide
  refine ⟨hmid, h6, ?_, rfl, rfl⟩
  rw [h6]
  decide

/-- The scan loop of `q_delete_dup` (`queue.c:243-255`), with the duplicate
collection and freeing folded away (moved nodes simply do not appear in the
result): `cur` is the node `ptr`, `rest` the nodes after it, `prev` records
whether the previous comparison was equal.  While `ptr` is not the last node,
`same = !strcmp(ptr->value, next->value)` is computed and `ptr` is moved to
the scratch ring iff `same || prev`; after the loop the last node is moved
iff `prev`.  `eqb` abstracts `!strcmp` so that the same loop can also be run
on identity-tagged nodes. -/
def delDupLoop {α : Type} (eqb : α → α → Bool) : Bool → α → List α → List α
  | prev, cur, [] => if prev then [] else [cur]
  | prev, cur, next :: rest =>
    (if eqb cur next || prev then [] else [cur]) ++ delDupLoop eqb (eqb cur next) next rest

/-- Function `q_delete_dup` (`queue.c:234-264`) on a present queue (an empty queue is
untouched: the loop guard `next->list.next != head` fails immediately). -/
def q_delete_dupL : List String → List String
  | [] => []
  | x :: xs => delDupLoop (fun a b => a == b) false x xs

/-- Variant of `q_delete_dup` including the `!head` guard; the `Bool` is the C return
value (`true` whenever the container is present). -/
def q_delete_dupO : Option (List String) → Bool × Option (List String)
  | none => (false, none)
  | some l => (true, some (q_delete_dupL l))

/-- Spec-side description (§4.4 of the spec): the values that occur exactly
once in the list, in their original order. -/
def onceOnly (l : List String) : List String := l.filter (fun x => l.count x == 1)

theorem onceOnly_cons (x : String) (xs : List String) :
    onceOnly (x :: xs)
      = (if x ∈ xs then [] else [x]) ++ (onceOnly xs).filter (fun y => y != x) := by
  unfold onceOnly
  rw [List.filter_cons, List.filter_filter]
  have hFG : List.filter (fun y => (x :: xs).count y == 1) xs
      = List.filter (fun a => (a != x) && (xs.count a == 1)) xs := by
    apply List.filter_congr
    intro y hy
    rcases eq_or_ne y x with rfl | hyx
    · have hc : ((y :: xs).count y == 1) = false := by
        apply beq_eq_false_iff_ne.mpr
        rw [List.count_cons_self]
        have := List.count_pos_iff.mpr hy
        omega
      simp only [hc, bne_self_eq_false, Bool.false_and]
    · have hc : (x :: xs).count y = xs.count y := List.count_cons_of_ne hyx _
      simp [hc, hyx]
  by_cases hx : x ∈ xs
  · have hne : ((x :: xs).count x == 1) = false := by
      apply beq_eq_false_iff_ne.mpr
      rw [List.count_cons_self]
      have := List.count_pos_iff.mpr hx
      omega
    rw [hne]
    simp [hx, hFG]
  · have heq : ((x :: xs).count x == 1) = true := by
      apply beq_iff_eq.mpr
      rw [List.count_cons_self, List.count_eq_zero.mpr hx]
    rw [heq]
    simp [hx, hFG]

theorem delDupLoop_eq (prev : Bool) (cur : String) (rest : List String)
    (hs : List.Sorted (· ≤ ·) (cur :: rest)) :
    delDupLoop (fun a b => a == b) prev cur rest =
      (if prev = true ∨ cur ∈ rest then [] else [cur])
        ++ (onceOnly rest).filter (fun y => y != cur) := by
  induction rest generalizing prev cur with
  | nil =>
    cases prev <;> simp [delDupLoop, onceOnly]
  | cons next rest ih =>
    have hs2 : List.Sorted (· ≤ ·) (next :: rest) := hs.of_cons
    have hcn : cur ≤ next := (List.sorted_cons.mp hs).1 next (List.mem_cons_self _ _)
    have hmemeq : cur ∈ rest → cur = next := by
      intro hcr
      exact le_antisymm hcn ((List.sorted_cons.mp hs2).1 cur hcr)
    simp only [delDupLoop]
    rw [ih (cur == next) next hs2, onceOnly_cons next rest, List.filter_append,
      List.filter_filter]
    have hfilters : (onceOnly rest).filter (fun y => y != next)
        = (onceOnly rest).filter (fun y => (y != cur) && (y != next)) := by
      apply List.filter_congr
      intro y hy
      have hyr : y ∈ rest := List.mem_of_mem_filter hy
      rcases eq_or_ne y cur with rfl | hyc
      · rw [hmemeq hyr]
        simp
      · simp [hyc]
    rw [← hfilters]
    rcases eq_or_ne cur next with rfl | hce
    · simp [List.mem_cons]
    · have hcm : cur ∈ next :: rest ↔ False := by
        simp only [List.mem_cons, iff_false]
        rintro (rfl | hcr)
        · exact hce rfl
        · exact hce (hmemeq hcr)
      have hif : List.filter (fun y => y != cur) (if next ∈ rest then [] else [next])
          = (if next ∈ rest then [] else [next]) := by
        by_cases hnr : next ∈ rest <;> simp [hnr, Ne.symm hce]
      cases prev <;> simp [hce, hcm, hif]

/-- C4: On a list sorted ascending, `q_delete_dup` keeps exactly the values
occurring once (in order), returns true iff the container is present, and
maps the sorted `["a", "a", "b", "c", "c"]` to `["b"]`. -/
theorem q_delete_dup_keeps_singletons :
    (∀ l : List String, List.Sorted (· ≤ ·) l → q_delete_dupL l = onceOnly l) ∧
    q_delete_dupL ["a", "a", "b", "c", "c"] = ["b"] ∧
    (∀ l : List String, (q_delete_dupO (some l)).1 = true) ∧
    q_delete_dupO none = (false, none) := by
  have hmain : ∀ l : List String, List.Sorted (· ≤ ·) l → q_delete_dupL l = onceOnly l := by
    intro l hl
    match l with
    | [] => rfl
    | x :: xs =>
      show delDupLoop (fun a b => a == b) false x xs = _
      rw [delDupLoop_eq false x xs hl, onceOnly_cons x xs]
      simp
  refine ⟨hmain, ?_, fun l => rfl, rfl⟩
  decide

theorem q_delete_dup_keeps_singletons_witness :
    q_delete_dupL ["a", "a", "b"] = onceOnly ["a", "a", "b"] :=
  q_delete_dup_keeps_singletons.1 ["a", "a", "b"] (by simp +decide [List.sorted_cons])

/-- Function `q_swap` (`queue.c:269-292`) at the payload-sequence level: the pointer
loop relinks each adjacent pair `(left, right)` so that `right` comes first,
then moves on two nodes; it stops when fewer than two unprocessed nodes
remain, so an odd final node stays in place.  Empty and single-node rings
are rejected by the `head->next == head->prev` guard. -/
def q_swapL {α : Type} : List α → List α
  | a :: b :: rest => b :: a :: q_swapL rest
  | l => l

/-- Variant of `q_swap` including the `!head` guard. -/
def q_swapO : Option (List String) → Option (List String)
  | none => none
  | some l => some (q_swapL l)

/-- Spec-side index map (§4.5 of the spec): position `i` receives the element
from position `i + 1` when `i` is even and has a right neighbour, from
position `i - 1` when `i` is odd, and keeps its element otherwise. -/
def swapIdx (n i : Nat) : Nat :=
  if i % 2 = 0 then (if i + 1 < n then i + 1 else i) else i - 1

theorem q_swapL_length {α : Type} (l : List α) : (q_swapL l).length = l.length := by
  match l with
  | [] => rfl
  | [a] => rfl
  | a :: b :: rest => simp [q_swapL, q_swapL_length rest]

theorem q_swapL_get {α : Type} (l : List α) (i : Nat) (h : i < l.length) :
    (q_swapL l)[i]? = l[swapIdx l.length i]? := by
  match l, i with
  | [], i => simp at h
  | [a], i =>
    have hi : i = 0 := by simpa using h
    subst hi
    simp [q_swapL, swapIdx]
  | a :: b :: rest, 0 =>
    have h1 : 1 < rest.length + 2 := by omega
    simp [q_swapL, swapIdx, h1]
  | a :: b :: rest, 1 =>
    simp [q_swapL, swapIdx]
  | a :: b :: rest, i + 2 =>
    have hlt : i < rest.length := by
      simp only [List.length_cons] at h
      omega
    have ih := q_swapL_get rest i hlt
    have hsw : swapIdx (rest.length + 2) (i + 2) = swapIdx rest.length i + 2 := by
      unfold swapIdx
      by_cases hp : i % 2 = 0
      · have hp2 : (i + 2) % 2 = 0 := by omega
        by_cases h1 : i + 1 < rest.length
        · have h3 : i + 2 + 1 < rest.length + 2 := by omega
          simp [hp, hp2, h1, h3]
        · have h3 : ¬ i + 2 + 1 < rest.length + 2 := by omega
          simp [hp, hp2, h1, h3]
      · have hp2 : ¬ (i + 2) % 2 = 0 := by omega
        simp [hp, hp2]
        omega
    show (b :: a :: q_swapL rest)[i + 2]? = (a :: b :: rest)[swapIdx (a :: b :: rest).length (i + 2)]?
    simp only [List.length_cons]
    rw [show rest.length + 1 + 1 = rest.length + 2 from rfl, hsw]
    simpa using ih

/-- C5: `q_swap` exchanges the elements at positions 0-1, 2-3, ..., leaving
an odd final element in place (`["a", "b", "c", "d", "e"]` becomes
`["b", "a", "d", "c", "e"]`); absent, empty and single-element queues are
unchanged. -/
theorem q_swap_swaps_pairs :
    (∀ (l : List String) (i : Nat), i < l.length →
        (q_swapL l)[i]? = l[swapIdx l.length i]?) ∧
    (∀ l : List String, (q_swapL l).length = l.length) ∧
    q_swapL ["a", "b", "c", "d", "e"] = ["b", "a", "d", "c", "e"] ∧
    (∀ l : List String, l.length ≤ 1 → q_swapL l = l) ∧
    q_swapO none = none := by
  refine ⟨fun l i h => q_swapL_get l i h, fun l => q_swapL_length l, by decide, ?_, rfl⟩
  intro l hl
  match l with
  | [] => rfl
  | [a] => rfl
  | a :: b :: rest => simp at hl

theorem q_swap_swaps_pairs_witness :
    (q_swapL ["a", "b", "c"])[0]? = ["a", "b", "c"][swapIdx 3 0]? :=
  q_swap_swaps_pairs.1 ["a", "b", "c"] 0 (by decide)

/-- Result of an insert operation: the C return value, the queue after the
call, and the heap accounting of the call — how many blocks the call obtained
from `malloc`/`strdup` and how many it freed before returning. -/
structure InsertOutcome where
  ok : Bool
  queue : Option (List String)
  allocated : Nat
  freed : Nat

/-- Function `q_insert_head` (`queue.c:56-77`).  `okElem`/`okStr` tell whether the
`malloc` for the element and the `strdup` for the payload succeed (the
allocator is an external input).  Branches in source order: absent container
(nothing allocated); element allocation failure (nothing allocated); `strdup`
failure (the element block is freed again, `queue.c:69`); success (the new
element holding a copy of `s` is linked directly after the sentinel,
`queue.c:74`). -/
def q_insert_headL (okElem okStr : Bool) (q : Option (List String)) (s : String) :
    InsertOutcome :=
  match q with
  | none => ⟨false, none, 0, 0⟩
  | some l =>
    if !okElem then ⟨false, some l, 0, 0⟩
    else if !okStr then ⟨false, some l, 1, 1⟩
    else ⟨true, some (s :: l), 2, 0⟩

/-- Function `q_insert_tail` (`queue.c:86-108`): same contract, the new element is
linked directly before the sentinel (`queue.c:105`). -/
def q_insert_tailL (okElem okStr : Bool) (q : Option (List String)) (s : String) :
    InsertOutcome :=
  match q with
  | none => ⟨false, none, 0, 0⟩
  | some l =>
    if !okElem then ⟨false, some l, 0, 0⟩
    else if !okStr then ⟨false, some l, 1, 1⟩
    else ⟨true, some (l ++ [s]), 2, 0⟩

/-- C7: a failed insert (absent container, element allocation failure, or
payload allocation failure) returns false, leaves the queue exactly as it
was, and frees every block it allocated; a successful insert returns true
and the queue gains exactly one new first (resp. last) element whose payload
equals the argument string, the two allocated blocks now owned by the
queue. -/
theorem q_insert_rollback :
    ∀ (okElem okStr : Bool) (q : Option (List String)) (s : String),
      ((q_insert_headL okElem okStr q s).ok = false →
          (q_insert_headL okElem okStr q s).queue = q ∧
          (q_insert_headL okElem okStr q s).allocated = (q_insert_headL okElem okStr q s).freed) ∧
      ((q_insert_tailL okElem okStr q s).ok = false →
          (q_insert_tailL okElem okStr q s).queue = q ∧
          (q_insert_tailL okElem okStr q s).allocated = (q_insert_tailL okElem okStr q s).freed) ∧
      ((q_insert_headL okElem okStr q s).ok = true →
          ∃ l, q = some l ∧ (q_insert_headL okElem okStr q s).queue = some (s :: l) ∧
            (q_insert_headL okElem okStr q s).allocated =
              (q_insert_headL okElem okStr q s).freed + 2) ∧
      ((q_insert_tailL okElem okStr q s).ok = true →
          ∃ l, q = some l ∧ (q_insert_tailL okElem okStr q s).queue = some (l ++ [s]) ∧
            (q_insert_tailL okElem okStr q s).allocated =
              (q_insert_tailL okElem okStr q s).freed + 2) ∧
      ((q_insert_headL okElem okStr q s).ok = true ↔
          q ≠ none ∧ okElem = true ∧ okStr = true) := by
  intro okElem okStr q s
  cases okElem <;> cases okStr <;> rcases q with _ | l <;>
    simp [q_insert_headL, q_insert_tailL]

theorem q_insert_rollback_witness :
    (q_insert_headL true false (some ["x"]) "y").queue = some ["x"] ∧
    (q_insert_headL true false (some ["x"]) "y").allocated =
      (q_insert_headL true false (some ["x"]) "y").freed :=
  (q_insert_rollback true false (some ["x"]) "y").1 rfl

/-- Function `q_remove_head` (`queue.c:124-141`) on a present queue: `none` models the
NULL return on an empty ring; otherwise the first element is unlinked (not
freed) and handed to the caller together with the remaining queue. -/
def q_remove_headL : List String → Option (String × List String)
  | [] => none
  | x :: xs => some (x, xs)

/-- Function `q_remove_tail` (`queue.c:147-164`): unlinks the last element
(`head->prev`). -/
def q_remove_tailL (l : List String) : Option (String × List String) :=
  match l with
  | [] => none
  | x :: xs => some ((x :: xs).getLast (by simp), (x :: xs).dropLast)

/-- Function `q_size` (`queue.c:180-190`): 0 on an absent or empty container,
otherwise the number of nodes counted from `head->next` around to `head`. -/
def q_sizeL : Option (List String) → Nat
  | none => 0
  | some l => l.length

/-- One operation of the §8 size-invariant workload; inserts carry their
allocator outcome. -/
inductive QOp : Type
  | insHead (okElem okStr : Bool) (s : String)
  | insTail (okElem okStr : Bool) (s : String)
  | remHead
  | remTail

/-- Applies one workload operation to (queue, inserts that returned true,
removes that returned an element), using the operation models above. -/
def stepOp (st : List String × Nat × Nat) : QOp → List String × Nat × Nat
  | .insHead okElem okStr s =>
    let o := q_insert_headL okElem okStr (some st.1) s
    (o.queue.getD st.1, st.2.1 + (if o.ok then 1 else 0), st.2.2)
  | .insTail okElem okStr s =>
    let o := q_insert_tailL okElem okStr (some st.1) s
    (o.queue.getD st.1, st.2.1 + (if o.ok then 1 else 0), st.2.2)
  | .remHead =>
    match q_remove_headL st.1 with
    | none => st
    | some (_, rest) => (rest, st.2.1, st.2.2 + 1)
  | .remTail =>
    match q_remove_tailL st.1 with
    | none => st
    | some (_, rest) => (rest, st.2.1, st.2.2 + 1)

/-- The workload runner: starts from the empty queue created by `q_new`
(`queue.c:20-29`). -/
def runOps (ops : List QOp) : List String × Nat × Nat :=
  ops.foldl stepOp ([], 0, 0)

theorem stepOp_inv (st : List String × Nat × Nat) (op : QOp)
    (h : st.1.length + st.2.2 = st.2.1) :
    (stepOp st op).1.length + (stepOp st op).2.2 = (stepOp st op).2.1 := by
  rcases op with ⟨okElem, okStr, s⟩ | ⟨okElem, okStr, s⟩ | _ | _
  · cases okElem <;> cases okStr <;> simp [stepOp, q_insert_headL] <;> omega
  · cases okElem <;> cases okStr <;> simp [stepOp, q_insert_tailL] <;> omega
  · rcases hst : st.1 with _ | ⟨x, xs⟩ <;> simp [stepOp, q_remove_headL, hst] <;>
      rw [hst] at h <;> simp at h <;> omega
  · rcases hst : st.1 with _ | ⟨x, xs⟩ <;> simp [stepOp, q_remove_tailL, hst] <;>
      rw [hst] at h <;> simp at h <;> omega

theorem foldl_stepOp_inv (ops : List QOp) (st : List String × Nat × Nat)
    (h : st.1.length + st.2.2 = st.2.1) :
    (ops.foldl stepOp st).1.length + (ops.foldl stepOp st).2.2
      = (ops.foldl stepOp st).2.1 := by
  induction ops generalizing st with
  | nil => exact h
  | cons op ops ih =>
    rw [List.foldl_cons]
    exact ih (stepOp st op) (stepOp_inv st op h)

/-- C9: after any workload of inserts and removes starting from `q_new`,
`q_size` equals the number of inserts that returned true minus the number of
removes that returned an element; and `q_size` of an absent container
is 0. -/
theorem q_size_counts :
    (∀ ops : List QOp,
        (runOps ops).2.2 ≤ (runOps ops).2.1 ∧
        q_sizeL (some (runOps ops).1) = (runOps ops).2.1 - (runOps ops).2.2) ∧
    q_sizeL none = 0 := by
  refine ⟨fun ops => ?_, rfl⟩
  have h := foldl_stepOp_inv ops ([], 0, 0) rfl
  unfold runOps
  constructor
  · omega
  · show (List.foldl stepOp ([], 0, 0) ops).1.length
        = (List.foldl stepOp ([], 0, 0) ops).2.1 - (List.foldl stepOp ([], 0, 0) ops).2.2
    omega

/-- Value `bufsize - 1` computed in the C type `size_t` (64-bit unsigned, wrapping
modulo `2^64`), as in `strncpy(sp, ..., bufsize - 1)` and `sp[bufsize - 1]`
at `queue.c:136-137` and `queue.c:159-160`. -/
def sizetSub1 (bufsize : Nat) : Nat := (bufsize + (2 ^ 64 - 1)) % 2 ^ 64

/-- The indices of `sp` written by the copy step of `q_remove_head` /
`q_remove_tail`: `strncpy` writes exactly its length argument
`bufsize - 1` bytes (copying then NUL-padding), indices `0 .. bufsize-2`,
and the explicit terminator store writes index `bufsize - 1`. -/
def removeCopyWrites (bufsize : Nat) : List Nat :=
  List.range (sizetSub1 bufsize) ++ [sizetSub1 bufsize]

/-- The number of payload bytes `strncpy` copies out of a payload of length
`len` before padding. -/
def strncpyCopied (len bufsize : Nat) : Nat := min len (sizetSub1 bufsize)

/-- C10: for `bufsize ≥ 1` (below the `size_t` range limit) every byte the
copy writes lands strictly below `bufsize` and at most `bufsize - 1` payload
bytes are copied, with the terminator exactly at `bufsize - 1`; for
`bufsize = 0` the subtraction wraps to `2^64 - 1`, so the terminator store
indexes `sp[2^64 - 1]`, far outside any buffer of size 0. -/
theorem remove_copy_needs_positive_bufsize :
    (∀ bufsize : Nat, 1 ≤ bufsize → bufsize < 2 ^ 64 →
        sizetSub1 bufsize = bufsize - 1 ∧
        (∀ i ∈ removeCopyWrites bufsize, i < bufsize) ∧
        (∀ len : Nat, strncpyCopied len bufsize ≤ bufsize - 1)) ∧
    sizetSub1 0 = 2 ^ 64 - 1 ∧
    2 ^ 64 - 1 ∈ removeCopyWrites 0 := by
  have h0 : sizetSub1 0 = 2 ^ 64 - 1 := by
    unfold sizetSub1
    norm_num
  refine ⟨?_, h0, ?_⟩
  · intro bufsize h1 h2
    have hs : sizetSub1 bufsize = bufsize - 1 := by
      unfold sizetSub1
      omega
    refine ⟨hs, ?_, ?_⟩
    · intro i hi
      rcases List.mem_append.mp hi with hr | hr
      · have := List.mem_range.mp hr
        omega
      · have : i = sizetSub1 bufsize := by simpa using hr
        omega
    · intro len
      unfold strncpyCopied
      omega
  · unfold removeCopyWrites
    rw [h0]
    exact List.mem_append_right _ (List.mem_singleton.mpr rfl)

theorem remove_copy_needs_positive_bufsize_witness :
    sizetSub1 8 = 8 - 1 ∧
    (∀ i ∈ removeCopyWrites 8, i < 8) ∧
    (∀ len : Nat, strncpyCopied len 8 ≤ 8 - 1) :=
  remove_copy_needs_positive_bufsize.1 8 (by norm_num) (by norm_num)

/-- Transport a list indexing along an index equality. -/
theorem getElem_congr_idx {L : List Nat} {i j : Nat} {hi : i < L.length}
    {hj : j < L.length} (h : i = j) : L[i] = L[j] := by
  subst h
  rfl

/-- The `next` field of node `x` in a well-formed ring whose cycle, sentinel
first, is `L` (data model §3: an embedded `struct list_head` ring): the
cyclic successor.  Nodes outside the ring are mapped to themselves. -/
def ringNext (L : List Nat) (x : Nat) : Nat :=
  if h : x ∈ L then
    L.get ⟨(L.indexOf x + 1) % L.length,
      Nat.mod_lt _ (List.length_pos.mpr (List.ne_nil_of_mem h))⟩
  else x

/-- The `prev` field of node `x` in the ring with cycle `L`: the cyclic
predecessor. -/
def ringPrev (L : List Nat) (x : Nat) : Nat :=
  if h : x ∈ L then
    L.get ⟨(L.indexOf x + (L.length - 1)) % L.length,
      Nat.mod_lt _ (List.length_pos.mpr (List.ne_nil_of_mem h))⟩
  else x

theorem ringNext_getElem (L : List Nat) (hnd : L.Nodup) (i : Nat) (hi : i < L.length)
    (h2 : (i + 1) % L.length < L.length) :
    ringNext L L[i] = L[(i + 1) % L.length] := by
  have hmem : L[i] ∈ L := List.getElem_mem hi
  unfold ringNext
  rw [dif_pos hmem]
  have hidx : L.indexOf L[i] = i := List.indexOf_getElem hnd i hi
  simp only [List.get_eq_getElem]
  exact getElem_congr_idx (by rw [hidx])

theorem ringPrev_getElem (L : List Nat) (hnd : L.Nodup) (i : Nat) (hi : i < L.length)
    (h2 : (i + (L.length - 1)) % L.length < L.length) :
    ringPrev L L[i] = L[(i + (L.length - 1)) % L.length] := by
  have hmem : L[i] ∈ L := List.getElem_mem hi
  unfold ringPrev
  rw [dif_pos hmem]
  have hidx : L.indexOf L[i] = i := List.indexOf_getElem hnd i hi
  simp only [List.get_eq_getElem]
  exact getElem_congr_idx (by rw [hidx])

/-- A pointer state: the `next` and `prev` fields of every node, indexed by
node id. -/
@[ext]
structure LinkSt where
  nxt : Nat → Nat
  prv : Nat → Nat

/-- Predicate: `st` holds a well-formed ring whose cycle (sentinel first) is `L`:
distinct nodes whose `next`/`prev` fields are the cyclic successor and
predecessor in `L`. -/
def wfRingSt (st : LinkSt) (L : List Nat) : Prop :=
  L.Nodup ∧ ∀ x ∈ L, st.nxt x = ringNext L x ∧ st.prv x = ringPrev L x

/-- The loop of `q_reverse` (`queue.c:308-314`): starting at `ptr = head`,
swap `ptr->next` and `ptr->prev`, step to `ptr->prev` (the old `next`), stop
when back at `head`; `fuel` bounds the number of iterations (the ring length
suffices on a well-formed ring). -/
def revLoop (head : Nat) : LinkSt → Nat → Nat → LinkSt
  | st, _, 0 => st
  | st, ptr, fuel + 1 =>
    if st.nxt ptr = head then
      ⟨Function.update st.nxt ptr (st.prv ptr), Function.update st.prv ptr (st.nxt ptr)⟩
    else
      revLoop head
        ⟨Function.update st.nxt ptr (st.prv ptr), Function.update st.prv ptr (st.nxt ptr)⟩
        (st.nxt ptr) fuel

/-- Function `q_reverse` (`queue.c:301-315`) at the pointer level: no-op when
`list_empty(head)` (`head->next == head`), otherwise the swap loop. -/
def q_reverseSt (st : LinkSt) (head : Nat) (fuel : Nat) : LinkSt :=
  if st.nxt head = head then st else revLoop head st head fuel

/-- Variant of `q_reverse` including the `!head` (absent container) guard. -/
def q_reverseStO (head fuel : Nat) : Option LinkSt → Option LinkSt
  | none => none
  | some st => some (q_reverseSt st head fuel)

/-- The linear dump: follow `next` from `head->next` until `head` comes back
(the traversal `q_size` and the display harness use, `queue.c:186-187`). -/
def ringWalk (st : LinkSt) (head : Nat) : Nat → Nat → List Nat
  | 0, _ => []
  | fuel + 1, ptr => if ptr = head then [] else ptr :: ringWalk st head fuel (st.nxt ptr)

def q_dumpSt (st : LinkSt) (head : Nat) (fuel : Nat) : List Nat :=
  ringWalk st head fuel (st.nxt head)

/-- The state with `next` and `prev` exchanged exactly on the members of
`L` — the net effect of the `q_reverse` loop. -/
def swapOn (L : List Nat) (st : LinkSt) : LinkSt :=
  ⟨fun x => if x ∈ L then st.prv x else st.nxt x,
   fun x => if x ∈ L then st.nxt x else st.prv x⟩

theorem swapOn_nil (st : LinkSt) : swapOn [] st = st := by
  cases st
  simp [swapOn]

theorem swapOn_mem_congr (L1 L2 : List Nat) (st : LinkSt)
    (h : ∀ x, x ∈ L1 ↔ x ∈ L2) : swapOn L1 st = swapOn L2 st := by
  simp only [swapOn, LinkSt.mk.injEq]
  constructor <;> funext x <;> simp [h x]

theorem swapOn_swapOn (L : List Nat) (st : LinkSt) : swapOn L (swapOn L st) = st := by
  cases st
  simp only [swapOn, LinkSt.mk.injEq]
  constructor <;> funext x <;> by_cases hx : x ∈ L <;> simp [hx]

theorem swapOn_snoc (d : List Nat) (st : LinkSt) (x : Nat) (hx : x ∉ d) :
    (⟨Function.update (swapOn d st).nxt x ((swapOn d st).prv x),
      Function.update (swapOn d st).prv x ((swapOn d st).nxt x)⟩ : LinkSt)
      = swapOn (d ++ [x]) st := by
  have hn : ∀ y, Function.update (swapOn d st).nxt x ((swapOn d st).prv x) y
      = (swapOn (d ++ [x]) st).nxt y := by
    intro y
    rcases eq_or_ne y x with rfl | hyx
    · simp [Function.update_same, swapOn, hx]
    · simp [Function.update_noteq hyx, swapOn, hyx]
  have hp : ∀ y, Function.update (swapOn d st).prv x ((swapOn d st).nxt x) y
      = (swapOn (d ++ [x]) st).prv y := by
    intro y
    rcases eq_or_ne y x with rfl | hyx
    · simp [Function.update_same, swapOn, hx]
    · simp [Function.update_noteq hyx, swapOn, hyx]
  exact LinkSt.ext (funext hn) (funext hp)

theorem revLoop_spec (st : LinkSt) (s : Nat) (ns : List Nat)
    (hnd : (s :: ns).Nodup)
    (hlk : ∀ x ∈ s :: ns, st.nxt x = ringNext (s :: ns) x ∧ st.prv x = ringPrev (s :: ns) x) :
    ∀ (m k : Nat), m + k = (s :: ns).length → ∀ (hk : k < (s :: ns).length),
      revLoop s (swapOn ((s :: ns).take k) st) ((s :: ns)[k]) m
        = swapOn (s :: ns) st := by
  intro m
  induction m with
  | zero =>
    intro k hmk hk
    omega
  | succ m ih =>
    intro k hmk hk
    have hn : 0 < (s :: ns).length := by simp
    have hmlt : (k + 1) % (s :: ns).length < (s :: ns).length := Nat.mod_lt _ hn
    have hnotin : (s :: ns)[k] ∉ (s :: ns).take k := by
      intro hmem
      obtain ⟨j, hj, hje⟩ := List.mem_iff_getElem.mp hmem
      have hjk : j < k := by
        simp [List.length_take] at hj
        omega
      rw [List.getElem_take] at hje
      have := (List.Nodup.getElem_inj_iff hnd).mp hje
      omega
    have hnxtk : (swapOn ((s :: ns).take k) st).nxt ((s :: ns)[k])
        = st.nxt ((s :: ns)[k]) := by
      simp [swapOn, hnotin]
    have hring : st.nxt ((s :: ns)[k]) = (s :: ns)[(k + 1) % (s :: ns).length] := by
      rw [(hlk _ (List.getElem_mem hk)).1]
      exact ringNext_getElem _ hnd k hk (Nat.mod_lt _ hn)
    have htake : (s :: ns).take k ++ [(s :: ns)[k]] = (s :: ns).take (k + 1) := by
      rw [List.take_succ]
      simp [List.getElem?_eq_getElem hk]
    simp only [revLoop]
    by_cases hlast : k + 1 = (s :: ns).length
    · have h0 : (k + 1) % (s :: ns).length = 0 := by
        rw [hlast]
        exact Nat.mod_self _
      have hcond : (swapOn ((s :: ns).take k) st).nxt ((s :: ns)[k]) = s := by
        rw [hnxtk, hring, @getElem_congr_idx (s :: ns) _ 0 hmlt hn h0]
        simp
      rw [if_pos hcond, swapOn_snoc _ _ _ hnotin, htake, hlast, List.take_length]
    · have hk1 : k + 1 < (s :: ns).length := by omega
      have hmod : (k + 1) % (s :: ns).length = k + 1 := Nat.mod_eq_of_lt hk1
      have hcond : (swapOn ((s :: ns).take k) st).nxt ((s :: ns)[k]) ≠ s := by
        rw [hnxtk, hring]
        intro h
        have h2 : (s :: ns)[(k + 1) % (s :: ns).length] = (s :: ns)[0] := by simpa using h
        have h3 := (List.Nodup.getElem_inj_iff hnd).mp h2
        omega
      rw [if_neg hcond, swapOn_snoc _ _ _ hnotin, htake, hnxtk, hring]
      have harg : (s :: ns)[(k + 1) % (s :: ns).length] = (s :: ns)[k + 1] :=
        getElem_congr_idx hmod
      rw [harg]
      exact ih (k + 1) (by omega) hk1

theorem q_reverseSt_eq_swapOn (st : LinkSt) (s : Nat) (ns : List Nat)
    (hnd : (s :: ns).Nodup)
    (hlk : ∀ x ∈ s :: ns, st.nxt x = ringNext (s :: ns) x ∧ st.prv x = ringPrev (s :: ns) x)
    (hne : ns ≠ []) :
    q_reverseSt st s (s :: ns).length = swapOn (s :: ns) st := by
  have hn : 0 < (s :: ns).length := by simp
  have hlen2 : 2 ≤ (s :: ns).length := by
    cases ns with
    | nil => exact absurd rfl hne
    | cons a as => simp
  have h1 : (1 : Nat) < (s :: ns).length := by omega
  have hguard : st.nxt s ≠ s := by
    have hsmem : s ∈ s :: ns := List.mem_cons_self s ns
    have hmlt : (0 + 1) % (s :: ns).length < (s :: ns).length := Nat.mod_lt _ hn
    rw [(hlk s hsmem).1]
    have heq : ringNext (s :: ns) ((s :: ns)[0]) = (s :: ns)[(0 + 1) % (s :: ns).length] :=
      ringNext_getElem _ hnd 0 hn (Nat.mod_lt _ hn)
    have h1m : (0 + 1) % (s :: ns).length = 1 := by
      rw [Nat.zero_add]
      exact Nat.mod_eq_of_lt h1
    intro hcontra
    have hchain : (s :: ns)[1] = (s :: ns)[0] := by
      calc (s :: ns)[1] = (s :: ns)[(0 + 1) % (s :: ns).length] :=
            (getElem_congr_idx h1m).symm
        _ = ringNext (s :: ns) ((s :: ns)[0]) := heq.symm
        _ = ringNext (s :: ns) s := rfl
        _ = s := hcontra
        _ = (s :: ns)[0] := rfl
    have := (List.Nodup.getElem_inj_iff hnd).mp hchain
    omega
  unfold q_reverseSt
  rw [if_neg hguard]
  have h := revLoop_spec st s ns hnd hlk (s :: ns).length 0 (by omega) hn
  simpa [swapOn_nil] using h

theorem mod_juggle0 (n i : Nat) (hn : 0 < n) (hi : i < n) :
    (n - ((n - i) % n)) % n = i := by
  rcases Nat.eq_zero_or_pos i with rfl | hi1
  · rw [Nat.sub_zero, Nat.mod_self, Nat.sub_zero, Nat.mod_self]
  · rw [Nat.mod_eq_of_lt (show n - i < n by omega), show n - (n - i) = i by omega,
      Nat.mod_eq_of_lt hi]

theorem mod_juggle1 (n i : Nat) (hn : 0 < n) (hi : i < n) :
    (n - (((n - i) % n + 1) % n)) % n = (i + (n - 1)) % n := by
  rcases Nat.eq_zero_or_pos i with rfl | hi1
  · rw [Nat.sub_zero, Nat.mod_self, Nat.zero_add]
    rcases eq_or_lt_of_le hn with h1 | h1
    · rw [← h1]
    · rw [Nat.mod_eq_of_lt h1, Nat.zero_add]
  · rw [Nat.mod_eq_of_lt (show n - i < n by omega)]
    rcases eq_or_lt_of_le hi1 with h1 | h1
    · rw [← h1, show n - 1 + 1 = n by omega, Nat.mod_self, Nat.sub_zero, Nat.mod_self,
        show 1 + (n - 1) = n by omega, Nat.mod_self]
    · rw [Nat.mod_eq_of_lt (show n - i + 1 < n by omega),
        show n - (n - i + 1) = i - 1 by omega,
        Nat.mod_eq_of_lt (show i - 1 < n by omega),
        show i + (n - 1) = (i - 1) + n by omega,
        Nat.add_mod_right, Nat.mod_eq_of_lt (show i - 1 < n by omega)]

theorem mod_juggle2 (n i : Nat) (hn : 0 < n) (hi : i < n) :
    (n - (((n - i) % n + (n - 1)) % n)) % n = (i + 1) % n := by
  rcases Nat.eq_zero_or_pos i with rfl | hi1
  · rw [Nat.sub_zero, Nat.mod_self, Nat.zero_add]
    rcases eq_or_lt_of_le hn with h1 | h1
    · rw [← h1]
    · rw [Nat.mod_eq_of_lt (show n - 1 < n by omega), show n - (n - 1) = 1 by omega,
        Nat.zero_add]
  · rw [Nat.mod_eq_of_lt (show n - i < n by omega),
      show n - i + (n - 1) = (n - i - 1) + n by omega, Nat.add_mod_right,
      Nat.mod_eq_of_lt (show n - i - 1 < n by omega),
      show n - (n - i - 1) = i + 1 by omega]

theorem rev_cycle_getElem (s : Nat) (ns : List Nat) (m : Nat)
    (hm : m < (s :: ns.reverse).length)
    (hm2 : ((s :: ns).length - m) % (s :: ns).length < (s :: ns).length) :
    (s :: ns.reverse)[m] = (s :: ns)[((s :: ns).length - m) % (s :: ns).length] := by
  have hn : 0 < (s :: ns).length := by simp
  rcases m with _ | m
  · have h0 : ((s :: ns).length - 0) % (s :: ns).length = 0 := by
      rw [Nat.sub_zero, Nat.mod_self]
    rw [@getElem_congr_idx (s :: ns) _ 0 hm2 hn h0]
    simp
  · have hm3 : m < ns.reverse.length := by simpa using hm
    have hmr : m < ns.length := by simpa using hm3
    have hL : (s :: ns.reverse)[m + 1] = ns[ns.length - 1 - m] := by
      rw [List.getElem_cons_succ]
      exact List.getElem_reverse hm3
    have hidx : ((s :: ns).length - (m + 1)) % (s :: ns).length
        = (ns.length - 1 - m) + 1 := by
      simp only [List.length_cons]
      rw [Nat.mod_eq_of_lt (by omega)]
      omega
    have hb : (ns.length - 1 - m) + 1 < (s :: ns).length := by
      simp only [List.length_cons]
      omega
    rw [hL, @getElem_congr_idx (s :: ns) _ ((ns.length - 1 - m) + 1) hm2 hb hidx,
      List.getElem_cons_succ]

theorem ringNext_rev (s : Nat) (ns : List Nat) (hnd : (s :: ns).Nodup)
    (x : Nat) (hx : x ∈ s :: ns) :
    ringNext (s :: ns.reverse) x = ringPrev (s :: ns) x := by
  have hn : 0 < (s :: ns).length := by simp
  have hlenR : (s :: ns.reverse).length = (s :: ns).length := by simp
  have h1 := List.nodup_cons.mp hnd
  have hndR : (s :: ns.reverse).Nodup := by simp [List.nodup_cons, h1.1, h1.2]
  obtain ⟨i, hi, rfl⟩ := List.mem_iff_getElem.mp hx
  have hj : ((s :: ns).length - i) % (s :: ns).length < (s :: ns).length := Nat.mod_lt _ hn
  have hjR : ((s :: ns).length - i) % (s :: ns).length < (s :: ns.reverse).length := by
    rw [hlenR]
    exact hj
  have hxR : (s :: ns.reverse)[((s :: ns).length - i) % (s :: ns).length] = (s :: ns)[i] := by
    rw [rev_cycle_getElem s ns _ hjR (Nat.mod_lt _ hn)]
    exact @getElem_congr_idx (s :: ns) _ i (Nat.mod_lt _ hn) hi (mod_juggle0 _ i hn hi)
  have hb2 : (((s :: ns).length - i) % (s :: ns).length + 1) % (s :: ns.reverse).length
      < (s :: ns.reverse).length := Nat.mod_lt _ (by rw [hlenR]; exact hn)
  have hstep : ringNext (s :: ns.reverse) ((s :: ns)[i])
      = (s :: ns.reverse)[(((s :: ns).length - i) % (s :: ns).length + 1)
          % (s :: ns.reverse).length] := by
    rw [← hxR]
    exact ringNext_getElem _ hndR _ hjR hb2
  have hmodlen : (((s :: ns).length - i) % (s :: ns).length + 1) % (s :: ns.reverse).length
      = (((s :: ns).length - i) % (s :: ns).length + 1) % (s :: ns).length := by
    rw [hlenR]
  have hb3 : (((s :: ns).length - i) % (s :: ns).length + 1) % (s :: ns).length
      < (s :: ns.reverse).length := by
    rw [hlenR]
    exact Nat.mod_lt _ hn
  have hbig : ((s :: ns).length - ((((s :: ns).length - i) % (s :: ns).length + 1)
      % (s :: ns).length)) % (s :: ns).length < (s :: ns).length := Nat.mod_lt _ hn
  have hfin : (i + ((s :: ns).length - 1)) % (s :: ns).length < (s :: ns).length :=
    Nat.mod_lt _ hn
  have hback : (s :: ns.reverse)[(((s :: ns).length - i) % (s :: ns).length + 1)
        % (s :: ns).length]
      = (s :: ns)[((s :: ns).length - ((((s :: ns).length - i) % (s :: ns).length + 1)
          % (s :: ns).length)) % (s :: ns).length] :=
    rev_cycle_getElem s ns _ hb3 (Nat.mod_lt _ hn)
  have hjug : ((s :: ns).length - ((((s :: ns).length - i) % (s :: ns).length + 1)
        % (s :: ns).length)) % (s :: ns).length
      = (i + ((s :: ns).length - 1)) % (s :: ns).length := mod_juggle1 _ i hn hi
  have hprev : ringPrev (s :: ns) ((s :: ns)[i])
      = (s :: ns)[(i + ((s :: ns).length - 1)) % (s :: ns).length] :=
    ringPrev_getElem _ hnd i hi (Nat.mod_lt _ hn)
  rw [hstep, @getElem_congr_idx (s :: ns.reverse) _ _ hb2 hb3 hmodlen, hback,
    @getElem_congr_idx (s :: ns) _ _ (Nat.mod_lt _ hn) (Nat.mod_lt _ hn) hjug, hprev]

theorem ringPrev_rev (s : Nat) (ns : List Nat) (hnd : (s :: ns).Nodup)
    (x : Nat) (hx : x ∈ s :: ns) :
    ringPrev (s :: ns.reverse) x = ringNext (s :: ns) x := by
  have hn : 0 < (s :: ns).length := by simp
  have hlenR : (s :: ns.reverse).length = (s :: ns).length := by simp
  have h1 := List.nodup_cons.mp hnd
  have hndR : (s :: ns.reverse).Nodup := by simp [List.nodup_cons, h1.1, h1.2]
  obtain ⟨i, hi, rfl⟩ := List.mem_iff_getElem.mp hx
  have hj : ((s :: ns).length - i) % (s :: ns).length < (s :: ns).length := Nat.mod_lt _ hn
  have hjR : ((s :: ns).length - i) % (s :: ns).length < (s :: ns.reverse).length := by
    rw [hlenR]
    exact hj
  have hxR : (s :: ns.reverse)[((s :: ns).length - i) % (s :: ns).length] = (s :: ns)[i] := by
    rw [rev_cycle_getElem s ns _ hjR (Nat.mod_lt _ hn)]
    exact @getElem_congr_idx (s :: ns) _ i (Nat.mod_lt _ hn) hi (mod_juggle0 _ i hn hi)
  have hb2 : (((s :: ns).length - i) % (s :: ns).length + ((s :: ns.reverse).length - 1))
      % (s :: ns.reverse).length < (s :: ns.reverse).length :=
    Nat.mod_lt _ (by rw [hlenR]; exact hn)
  have hstep : ringPrev (s :: ns.reverse) ((s :: ns)[i])
      = (s :: ns.reverse)[(((s :: ns).length - i) % (s :: ns).length
          + ((s :: ns.reverse).length - 1)) % (s :: ns.reverse).length] := by
    rw [← hxR]
    exact ringPrev_getElem _ hndR _ hjR hb2
  have hmodlen : (((s :: ns).length - i) % (s :: ns).length + ((s :: ns.reverse).length - 1))
        % (s :: ns.reverse).length
      = (((s :: ns).length - i) % (s :: ns).length + ((s :: ns).length - 1))
        % (s :: ns).length := by
    rw [hlenR]
  have hb3 : (((s :: ns).length - i) % (s :: ns).length + ((s :: ns).length - 1))
      % (s :: ns).length < (s :: ns.reverse).length := by
    rw [hlenR]
    exact Nat.mod_lt _ hn
  have hbig : ((s :: ns).length - ((((s :: ns).length - i) % (s :: ns).length
      + ((s :: ns).length - 1)) % (s :: ns).length)) % (s :: ns).length
      < (s :: ns).length := Nat.mod_lt _ hn
  have hfin : (i + 1) % (s :: ns).length < (s :: ns).length := Nat.mod_lt _ hn
  have hback : (s :: ns.reverse)[(((s :: ns).length - i) % (s :: ns).length
        + ((s :: ns).length - 1)) % (s :: ns).length]
      = (s :: ns)[((s :: ns).length - ((((s :: ns).length - i) % (s :: ns).length
          + ((s :: ns).length - 1)) % (s :: ns).length)) % (s :: ns).length] :=
    rev_cycle_getElem s ns _ hb3 (Nat.mod_lt _ hn)
  have hjug : ((s :: ns).length - ((((s :: ns).length - i) % (s :: ns).length
        + ((s :: ns).length - 1)) % (s :: ns).length)) % (s :: ns).length
      = (i + 1) % (s :: ns).length := mod_juggle2 _ i hn hi
  have hnext : ringNext (s :: ns) ((s :: ns)[i])
      = (s :: ns)[(i + 1) % (s :: ns).length] :=
    ringNext_getElem _ hnd i hi (Nat.mod_lt _ hn)
  rw [hstep, @getElem_congr_idx (s :: ns.reverse) _ _ hb2 hb3 hmodlen, hback,
    @getElem_congr_idx (s :: ns) _ _ (Nat.mod_lt _ hn) (Nat.mod_lt _ hn) hjug, hnext]

theorem wfRingSt_swapOn (st : LinkSt) (s : Nat) (ns : List Nat)
    (hw : wfRingSt st (s :: ns)) :
    wfRingSt (swapOn (s :: ns) st) (s :: ns.reverse) := by
  obtain ⟨hnd, hlk⟩ := hw
  have h1 := List.nodup_cons.mp hnd
  have hndR : (s :: ns.reverse).Nodup := by simp [List.nodup_cons, h1.1, h1.2]
  refine ⟨hndR, ?_⟩
  intro x hx
  have hx2 : x ∈ s :: ns := by
    rcases List.mem_cons.mp hx with rfl | hxr
    · exact List.mem_cons_self _ _
    · exact List.mem_cons_of_mem _ (List.mem_reverse.mp hxr)
  constructor
  · show (if x ∈ s :: ns then st.prv x else st.nxt x) = ringNext (s :: ns.reverse) x
    rw [if_pos hx2, (hlk x hx2).2]
    exact (ringNext_rev s ns hnd x hx2).symm
  · show (if x ∈ s :: ns then st.nxt x else st.prv x) = ringPrev (s :: ns.reverse) x
    rw [if_pos hx2, (hlk x hx2).1]
    exact (ringPrev_rev s ns hnd x hx2).symm

theorem ringWalk_spec (st : LinkSt) (s : Nat) (ns : List Nat)
    (hnd : (s :: ns).Nodup)
    (hlk : ∀ x ∈ s :: ns, st.nxt x = ringNext (s :: ns) x ∧ st.prv x = ringPrev (s :: ns) x) :
    ∀ (m k : Nat), m + k = (s :: ns).length → 1 ≤ k → k ≤ (s :: ns).length →
      ∀ f, m + 1 ≤ f →
        ∀ (hkm : k % (s :: ns).length < (s :: ns).length),
          ringWalk st s f ((s :: ns)[k % (s :: ns).length]) = (s :: ns).drop k := by
  intro m
  induction m with
  | zero =>
    intro k hmk h1 hk f hf hkm
    have hkn : k = (s :: ns).length := by omega
    have hn : 0 < (s :: ns).length := by simp
    have h0 : k % (s :: ns).length = 0 := by
      rw [hkn]
      exact Nat.mod_self _
    have hptr : (s :: ns)[k % (s :: ns).length] = s := by
      rw [@getElem_congr_idx (s :: ns) _ 0 hkm hn h0]
      simp
    rcases f with _ | f
    · omega
    · rw [hptr]
      simp [ringWalk, hkn, List.drop_length]
  | succ m ih =>
    intro k hmk h1 hk f hf hkm
    have hn : 0 < (s :: ns).length := by simp
    have hkn : k < (s :: ns).length := by omega
    have hmodk : k % (s :: ns).length = k := Nat.mod_eq_of_lt hkn
    have hget : (s :: ns)[k % (s :: ns).length] = (s :: ns)[k] := getElem_congr_idx hmodk
    have hne : (s :: ns)[k] ≠ s := by
      intro h
      have h2 : (s :: ns)[k] = (s :: ns)[0] := by simpa using h
      have h3 := (List.Nodup.getElem_inj_iff hnd).mp h2
      omega
    have hmlt : (k + 1) % (s :: ns).length < (s :: ns).length := Nat.mod_lt _ hn
    have hnxt : st.nxt ((s :: ns)[k]) = (s :: ns)[(k + 1) % (s :: ns).length] := by
      rw [(hlk _ (List.getElem_mem hkn)).1]
      exact ringNext_getElem _ hnd k hkn hmlt
    rcases f with _ | f
    · omega
    · simp only [ringWalk]
      rw [hget, if_neg hne, hnxt,
        ih (k + 1) (by omega) (by omega) (by omega) f (by omega) hmlt]
      exact (List.drop_eq_getElem_cons hkn).symm

theorem q_dumpSt_eq (st : LinkSt) (s : Nat) (ns : List Nat)
    (hw : wfRingSt st (s :: ns)) :
    q_dumpSt st s (s :: ns).length = ns := by
  obtain ⟨hnd, hlk⟩ := hw
  have hn : 0 < (s :: ns).length := by simp
  have hmlt : 1 % (s :: ns).length < (s :: ns).length := Nat.mod_lt _ hn
  have h1 : st.nxt s = (s :: ns)[1 % (s :: ns).length] := by
    rw [(hlk s (List.mem_cons_self s ns)).1]
    exact ringNext_getElem _ hnd 0 hn hmlt
  unfold q_dumpSt
  rw [h1, ringWalk_spec st s ns hnd hlk ns.length 1 (by simp) (le_refl 1) (by simp)
    ((s :: ns).length) (by simp) hmlt]
  rfl

/-- C8: on a well-formed ring, `q_reverse` reverses the node sequence read by
a linear dump (so the payload sequence is reversed for any payload
assignment), applying it twice restores the pointer state exactly (every
`next` and `prev` field, including those of the sentinel), and it is a no-op on an
empty ring (`head->next == head`) or an absent container. -/
theorem q_reverse_reverses :
    ∀ (st : LinkSt) (s : Nat) (ns : List Nat) (val : Nat → String),
      wfRingSt st (s :: ns) →
      (q_dumpSt (q_reverseSt st s (s :: ns).length) s (s :: ns).length = ns.reverse ∧
        (q_dumpSt (q_reverseSt st s (s :: ns).length) s (s :: ns).length).map val
          = (ns.map val).reverse) ∧
      q_reverseSt (q_reverseSt st s (s :: ns).length) s (s :: ns).length = st ∧
      (st.nxt s = s → q_reverseSt st s (s :: ns).length = st) ∧
      q_reverseStO s (s :: ns).length none = none := by
  intro st s ns val hw
  have hemp : st.nxt s = s → q_reverseSt st s (s :: ns).length = st := by
    intro h
    unfold q_reverseSt
    rw [if_pos h]
  rcases eq_or_ne ns [] with rfl | hne
  · obtain ⟨hnd, hlk⟩ := hw
    have hg : st.nxt s = s := by
      rw [(hlk s (List.mem_cons_self s [])).1]
      have hn1 : 0 < ([s] : List Nat).length := by simp
      have hm : (0 + 1) % ([s] : List Nat).length < ([s] : List Nat).length :=
        Nat.mod_lt _ hn1
      have h2 := ringNext_getElem [s] hnd 0 hn1 hm
      simpa using h2
    have hrev : q_reverseSt st s ([s] : List Nat).length = st := hemp hg
    refine ⟨⟨?_, ?_⟩, ?_, hemp, rfl⟩
    · rw [hrev]
      unfold q_dumpSt
      rw [hg]
      simp [ringWalk]
    · rw [hrev]
      unfold q_dumpSt
      rw [hg]
      simp [ringWalk]
    · rw [hrev, hrev]
  · obtain ⟨hnd, hlk⟩ := hw
    have heq := q_reverseSt_eq_swapOn st s ns hnd hlk hne
    have hw2 : wfRingSt (swapOn (s :: ns) st) (s :: ns.reverse) :=
      wfRingSt_swapOn st s ns ⟨hnd, hlk⟩
    have hlenR : (s :: ns.reverse).length = (s :: ns).length := by simp
    have hdump2 := q_dumpSt_eq (swapOn (s :: ns) st) s ns.reverse hw2
    rw [hlenR] at hdump2
    have hdump : q_dumpSt (q_reverseSt st s (s :: ns).length) s (s :: ns).length
        = ns.reverse := by
      rw [heq]
      exact hdump2
    refine ⟨⟨hdump, ?_⟩, ?_, hemp, rfl⟩
    · rw [hdump]
      simp
    · rw [heq]
      have hne2 : ns.reverse ≠ [] := by
        intro h
        apply hne
        simpa using h
      obtain ⟨hnd2, hlk2⟩ := hw2
      have heq2 := q_reverseSt_eq_swapOn (swapOn (s :: ns) st) s ns.reverse hnd2 hlk2 hne2
      rw [hlenR] at heq2
      rw [heq2]
      have hcong : swapOn (s :: ns.reverse) (swapOn (s :: ns) st)
          = swapOn (s :: ns) (swapOn (s :: ns) st) := by
        apply swapOn_mem_congr
        intro x
        simp
      rw [hcong, swapOn_swapOn]

/-- A concrete three-node ring 0 → 1 → 2 → 0 (sentinel 0). -/
def revSt0 : LinkSt :=
  ⟨fun x => if x = 0 then 1 else if x = 1 then 2 else if x = 2 then 0 else x,
   fun x => if x = 0 then 2 else if x = 1 then 0 else if x = 2 then 1 else x⟩

theorem q_reverse_reverses_witness :
    q_dumpSt (q_reverseSt revSt0 0 3) 0 3 = [2, 1] :=
  (q_reverse_reverses revSt0 0 [1, 2] (fun _ => "a")
    (by unfold wfRingSt; decide)).1.1

theorem ringNext_head (h : Nat) (t : List Nat) (hnd : (h :: t).Nodup) :
    ringNext (h :: t) h = t.headD h := by
  have h0 : (0 : Nat) < (h :: t).length := by simp
  have hm : (0 + 1) % (h :: t).length < (h :: t).length := Nat.mod_lt _ h0
  have heq := ringNext_getElem (h :: t) hnd 0 h0 hm
  cases t with
  | nil => simpa using heq
  | cons y t2 =>
    have hlen : (1 : Nat) < (h :: y :: t2).length := by simp
    have h1 : (0 + 1) % (h :: y :: t2).length = 1 := by
      rw [Nat.zero_add]
      exact Nat.mod_eq_of_lt hlen
    have h2 := heq.trans (@getElem_congr_idx (h :: y :: t2) _ 1 hm hlen h1)
    simpa using h2

theorem ringPrev_head (h : Nat) (t : List Nat) (hnd : (h :: t).Nodup) :
    ringPrev (h :: t) h = (h :: t).getLast (by simp) := by
  have h0 : (0 : Nat) < (h :: t).length := by simp
  have hm : (0 + ((h :: t).length - 1)) % (h :: t).length < (h :: t).length := Nat.mod_lt _ h0
  have heq := ringPrev_getElem (h :: t) hnd 0 h0 hm
  have hlast : (h :: t).length - 1 < (h :: t).length := by simp
  have h1 : (0 + ((h :: t).length - 1)) % (h :: t).length = (h :: t).length - 1 := by
    rw [Nat.zero_add]
    exact Nat.mod_eq_of_lt hlast
  have h2 := heq.trans (@getElem_congr_idx (h :: t) _ _ hm hlast h1)
  rw [List.getLast_eq_getElem]
  simpa using h2

theorem ringNext_middle (h x : Nat) (u v : List Nat)
    (hnd : (h :: u ++ x :: v).Nodup) :
    ringNext (h :: u ++ x :: v) x = v.headD h := by
  have hlen : (h :: u ++ x :: v).length = u.length + v.length + 2 := by simp; omega
  have hi : u.length + 1 < (h :: u ++ x :: v).length := by omega
  have hx : (h :: u ++ x :: v)[u.length + 1] = x := by
    rw [List.getElem_append_right (by simp)]
    simp
  have h0 : 0 < (h :: u ++ x :: v).length := by omega
  have hm : (u.length + 1 + 1) % (h :: u ++ x :: v).length < (h :: u ++ x :: v).length :=
    Nat.mod_lt _ h0
  have heq := ringNext_getElem (h :: u ++ x :: v) hnd (u.length + 1) hi hm
  rw [hx] at heq
  cases v with
  | nil =>
    have h1 : (u.length + 1 + 1) % (h :: u ++ x :: []).length = 0 := by
      have hL : (h :: u ++ x :: ([] : List Nat)).length = u.length + 2 := by simp
      rw [show u.length + 1 + 1 = u.length + 2 by omega, hL, Nat.mod_self]
    have h2 := heq.trans (@getElem_congr_idx (h :: u ++ x :: []) _ 0 hm h0 h1)
    simpa using h2
  | cons y v2 =>
    have hi2 : u.length + 2 < (h :: u ++ x :: y :: v2).length := by
      simp
      omega
    have h1 : (u.length + 1 + 1) % (h :: u ++ x :: y :: v2).length = u.length + 2 := by
      apply Nat.mod_eq_of_lt
      simpa using hi2
    have h2 := heq.trans (@getElem_congr_idx (h :: u ++ x :: y :: v2) _ _ hm hi2 h1)
    have h3 : (h :: u ++ x :: y :: v2)[u.length + 2] = y := by
      rw [List.getElem_append_right (by simp)]
      simp
    rw [h3] at h2
    simpa using h2

theorem ringPrev_middle (h x : Nat) (u v : List Nat)
    (hnd : (h :: u ++ x :: v).Nodup) :
    ringPrev (h :: u ++ x :: v) x = (h :: u).getLast (by simp) := by
  have hlen : (h :: u ++ x :: v).length = u.length + v.length + 2 := by simp; omega
  have hi : u.length + 1 < (h :: u ++ x :: v).length := by omega
  have hx : (h :: u ++ x :: v)[u.length + 1] = x := by
    rw [List.getElem_append_right (by simp)]
    simp
  have h0 : 0 < (h :: u ++ x :: v).length := by omega
  have hm : (u.length + 1 + ((h :: u ++ x :: v).length - 1)) % (h :: u ++ x :: v).length
      < (h :: u ++ x :: v).length := Nat.mod_lt _ h0
  have heq := ringPrev_getElem (h :: u ++ x :: v) hnd (u.length + 1) hi hm
  rw [hx] at heq
  have hul : u.length < (h :: u ++ x :: v).length := by omega
  have h1 : (u.length + 1 + ((h :: u ++ x :: v).length - 1)) % (h :: u ++ x :: v).length
      = u.length := by
    rw [hlen]
    rw [show u.length + 1 + (u.length + v.length + 2 - 1) = u.length + (u.length + v.length + 2)
      by omega, Nat.add_mod_right]
    apply Nat.mod_eq_of_lt
    omega
  have h2 := heq.trans (@getElem_congr_idx (h :: u ++ x :: v) _ _ hm hul h1)
  have h3 : (h :: u ++ x :: v)[u.length] = (h :: u).getLast (by simp) := by
    rw [List.getElem_append_left (by simp)]
    rw [List.getLast_eq_getElem]
    exact getElem_congr_idx (by simp)
  rw [h3] at h2
  exact h2

/-- Modelled from the spec: the Link Primitive `insert_after(anchor, node)` of
spec 4.1 (`list_add(node, head)`, called at `queue.c:74`): read
`next = head->next`, then write `next->prev = node`, `node->next = next`,
`node->prev = head`, `head->next = node`, in that order. -/
def list_add (st : LinkSt) (node head : Nat) : LinkSt :=
  let nx := st.nxt head
  ⟨Function.update (Function.update st.nxt node nx) head node,
   Function.update (Function.update st.prv nx node) node head⟩

/-- Modelled from the spec: the Link Primitive `insert_before(anchor, node)`
of spec 4.1 (`list_add_tail(node, head)`, called at `queue.c:105`): read
`prev = head->prev`, then write `prev->next = node`, `node->next = head`,
`node->prev = prev`, `head->prev = node`, in that order. -/
def list_add_tail (st : LinkSt) (node head : Nat) : LinkSt :=
  let pv := st.prv head
  ⟨Function.update (Function.update st.nxt pv node) node head,
   Function.update (Function.update st.prv node pv) head node⟩

/-- Modelled from the spec: the Link Primitive `unlink(node)` of spec 4.1
(`list_del(node)`, called at `queue.c:132`, `155`, `215`): link the two
neighbours of `node` to each other (`node->prev->next = node->next` and
`node->next->prev = node->prev`); the fields of `node` itself are left
stale. -/
def list_del (st : LinkSt) (node : Nat) : LinkSt :=
  ⟨Function.update st.nxt (st.prv node) (st.nxt node),
   Function.update st.prv (st.nxt node) (st.prv node)⟩

/-- Modelled from the spec: the Link Primitive `move_to(node, anchor)` of
spec 4.1 (`list_move(node, head)`, called at `queue.c:250` and `255`):
`unlink(node)` followed by `insert_after(head, node)`. -/
def list_move (st : LinkSt) (node head : Nat) : LinkSt :=
  list_add (list_del st node) node head

/-- Body of the `q_swap` loop (`queue.c:280-285`) with `left` the current
node and `right = left->next`: the six pointer writes
`left->prev->next = right`, `right->next->prev = left`,
`left->next = right->next`, `right->prev = left->prev`, `left->prev = right`,
`right->next = left`, in order, each read seeing the preceding writes. -/
def swapPair (st : LinkSt) (left : Nat) : LinkSt :=
  let right := st.nxt left
  let st1 : LinkSt := ⟨Function.update st.nxt (st.prv left) right, st.prv⟩
  let st2 : LinkSt := ⟨st1.nxt, Function.update st1.prv (st1.nxt right) left⟩
  let st3 : LinkSt := ⟨Function.update st2.nxt left (st2.nxt right), st2.prv⟩
  let st4 : LinkSt := ⟨st3.nxt, Function.update st3.prv right (st3.prv left)⟩
  let st5 : LinkSt := ⟨st4.nxt, Function.update st4.prv left right⟩
  ⟨Function.update st5.nxt right left, st5.prv⟩

/-- Loop of `q_swap` (`queue.c:278-291`): swap the pair at `left`, advance
`left = left->next; right = left->next` in the updated state, and stop when
`left` or `right` has come back to `head` (the do-while guard); `fuel`
bounds the number of iterations. -/
def q_swapLoop (st : LinkSt) (head left : Nat) : Nat → LinkSt
  | 0 => st
  | fuel + 1 =>
    let st2 := swapPair st left
    let left2 := st2.nxt left
    if left2 = head ∨ st2.nxt left2 = head then st2
    else q_swapLoop st2 head left2 fuel

/-- Function `q_swap` (`queue.c:269-292`) at the pointer level: return the
state unchanged when `head->next == head->prev` (absent guard aside, the
empty and single-node rings), otherwise run the pair-swap loop from
`left = head->next`. -/
def q_swapSt (st : LinkSt) (head fuel : Nat) : LinkSt :=
  if st.nxt head = st.prv head then st else q_swapLoop st head (st.nxt head) fuel

/-- Successor along a singly-linked open chain whose nodes in order are `L`
and whose final `next` is the terminator `z` (the shape `q_sort` leaves
after `end->next = NULL` at `queue.c:363` and the `mergesort` calls): the
element after `x` in `L`, or `z` for the last element. -/
def chainSucc (L : List Nat) (z x : Nat) : Nat :=
  match L with
  | [] => z
  | [_] => z
  | a :: b :: t => if x = a then b else chainSucc (b :: t) z x

/-- Repair pass of `q_sort` (`queue.c:370-373`): walk `end` forward from
`head` while `end->next` is not the null terminator `z`, writing
`end->next->prev = end`; on exit close the ring with `end->next = head` and
`head->prev = end`. `fuel` bounds the number of steps. -/
def repairLoop (st : LinkSt) (head z : Nat) : Nat → Nat → LinkSt
  | _, 0 => st
  | e, fuel + 1 =>
    if st.nxt e = z then
      ⟨Function.update st.nxt e head, Function.update st.prv head e⟩
    else
      repairLoop ⟨st.nxt, Function.update st.prv (st.nxt e) e⟩ head z (st.nxt e) fuel

theorem wfRingSt_congr (st st2 : LinkSt) (L : List Nat) (hw : wfRingSt st L)
    (h : ∀ x ∈ L, st2.nxt x = st.nxt x ∧ st2.prv x = st.prv x) : wfRingSt st2 L :=
  ⟨hw.1, fun x hx => ⟨(h x hx).1.trans (hw.2 x hx).1, (h x hx).2.trans (hw.2 x hx).2⟩⟩

theorem ringNext_mem (L : List Nat) (x : Nat) (hx : x ∈ L) : ringNext L x ∈ L := by
  unfold ringNext
  rw [dif_pos hx]
  exact L.get_mem _ _

theorem ringPrev_mem (L : List Nat) (x : Nat) (hx : x ∈ L) : ringPrev L x ∈ L := by
  unfold ringPrev
  rw [dif_pos hx]
  exact L.get_mem _ _

theorem ringPrev_ringNext (L : List Nat) (hnd : L.Nodup) (x : Nat) (hx : x ∈ L) :
    ringPrev L (ringNext L x) = x := by
  obtain ⟨i, hi, rfl⟩ := List.mem_iff_getElem.mp hx
  have h0 : 0 < L.length := lt_of_le_of_lt (Nat.zero_le _) hi
  have h2 : (i + 1) % L.length < L.length := Nat.mod_lt _ h0
  rw [ringNext_getElem L hnd i hi h2]
  have h3 : ((i + 1) % L.length + (L.length - 1)) % L.length < L.length := Nat.mod_lt _ h0
  rw [ringPrev_getElem L hnd _ h2 h3]
  apply getElem_congr_idx
  rw [Nat.mod_add_mod, show i + 1 + (L.length - 1) = i + L.length by omega,
    Nat.add_mod_right]
  exact Nat.mod_eq_of_lt hi

theorem ringNext_ringPrev (L : List Nat) (hnd : L.Nodup) (x : Nat) (hx : x ∈ L) :
    ringNext L (ringPrev L x) = x := by
  obtain ⟨i, hi, rfl⟩ := List.mem_iff_getElem.mp hx
  have h0 : 0 < L.length := lt_of_le_of_lt (Nat.zero_le _) hi
  have h2 : (i + (L.length - 1)) % L.length < L.length := Nat.mod_lt _ h0
  rw [ringPrev_getElem L hnd i hi h2]
  have h3 : ((i + (L.length - 1)) % L.length + 1) % L.length < L.length := Nat.mod_lt _ h0
  rw [ringNext_getElem L hnd _ h2 h3]
  apply getElem_congr_idx
  rw [Nat.mod_add_mod, show i + (L.length - 1) + 1 = i + L.length by omega,
    Nat.add_mod_right]
  exact Nat.mod_eq_of_lt hi

theorem getLast_cons_cons (a b : Nat) (l : List Nat) :
    (a :: b :: l).getLast (by simp) = (b :: l).getLast (by simp) :=
  List.getLast_cons _

theorem list_add_head_wf (st : LinkSt) (s : Nat) (ns : List Nat) (node : Nat)
    (hw : wfRingSt st (s :: ns)) (hnode : node ∉ s :: ns) :
    wfRingSt (list_add st node s) (s :: node :: ns) := by
  obtain ⟨hnd, hmem⟩ := hw
  have hsns : s ∉ ns := (List.nodup_cons.mp hnd).1
  have hndns : ns.Nodup := (List.nodup_cons.mp hnd).2
  have hns : node ≠ s := fun h => hnode (h ▸ List.mem_cons_self _ _)
  have hnns : node ∉ ns := fun h => hnode (List.mem_cons_of_mem _ h)
  have hnd2 : (s :: node :: ns).Nodup := by
    simp only [List.nodup_cons, List.mem_cons] at hnd ⊢
    exact ⟨fun h => h.elim (fun h2 => hns h2.symm) (fun h2 => hsns h2), hnns, hndns⟩
  have hnxt : ∀ y, (list_add st node s).nxt y =
      Function.update (Function.update st.nxt node (st.nxt s)) s node y := fun _ => rfl
  have hprv : ∀ y, (list_add st node s).prv y =
      Function.update (Function.update st.prv (st.nxt s) node) node s y := fun _ => rfl
  have hfst : st.nxt s = ns.headD s := by
    rw [(hmem s (List.mem_cons_self _ _)).1, ringNext_head s ns hnd]
  refine ⟨hnd2, ?_⟩
  intro x hx
  rcases List.mem_cons.mp hx with rfl | hx2
  · constructor
    · rw [hnxt, Function.update_same, ringNext_head x (node :: ns) hnd2]
      rfl
    · rw [hprv, Function.update_noteq hns.symm, hfst]
      cases ns with
      | nil =>
        rw [List.headD_nil, Function.update_same, ringPrev_head x [node] hnd2]
        rfl
      | cons y t =>
        have hxy : x ≠ y := fun h => hsns (h ▸ List.mem_cons_self _ _)
        rw [show (y :: t).headD x = y from rfl, Function.update_noteq hxy,
          (hmem x (List.mem_cons_self _ _)).2, ringPrev_head x (y :: t) hnd,
          ringPrev_head x (node :: y :: t) hnd2, getLast_cons_cons,
          getLast_cons_cons, getLast_cons_cons]
  rcases List.mem_cons.mp hx2 with rfl | hx3
  · constructor
    · rw [hnxt, Function.update_noteq hns, Function.update_same, hfst]
      exact (ringNext_middle s x [] ns hnd2).symm
    · rw [hprv, Function.update_same]
      have h9 := ringPrev_middle s x [] ns hnd2
      simp only [List.getLast_singleton] at h9
      exact h9.symm
  · obtain ⟨u, v, rfl⟩ := List.append_of_mem hx3
    have hxu : x ∉ u := by
      have := List.nodup_middle.mp hndns
      exact fun h => (List.nodup_cons.mp this).1 (List.mem_append_left _ h)
    have hxs : x ≠ s := fun h => hsns (h ▸ hx3)
    have hxn : x ≠ node := fun h => hnns (h ▸ hx3)
    constructor
    · rw [hnxt, Function.update_noteq hxs, Function.update_noteq hxn,
        (hmem x (List.mem_cons_of_mem _ hx3)).1]
      have h1 : ringNext (s :: u ++ x :: v) x = v.headD s := ringNext_middle s x u v hnd
      have h2 : ringNext (s :: (node :: u) ++ x :: v) x = v.headD s :=
        ringNext_middle s x (node :: u) v hnd2
      exact h1.trans h2.symm
    · rw [hprv, Function.update_noteq hxn, hfst]
      cases u with
      | nil =>
        rw [show (([] : List Nat) ++ x :: v).headD s = x from rfl, Function.update_same]
        have h9 := ringPrev_middle s x [node] v hnd2
        simp only [getLast_cons_cons, List.getLast_singleton] at h9
        exact h9.symm
      | cons y u2 =>
        have hxy : x ≠ y := fun h => hxu (h ▸ List.mem_cons_self _ _)
        rw [show ((y :: u2) ++ x :: v).headD s = y from rfl, Function.update_noteq hxy,
          (hmem x (List.mem_cons_of_mem _ hx3)).2]
        have h1 : ringPrev (s :: (y :: u2) ++ x :: v) x = (s :: y :: u2).getLast (by simp) :=
          ringPrev_middle s x (y :: u2) v hnd
        have h2 : ringPrev (s :: (node :: y :: u2) ++ x :: v) x
            = (s :: node :: y :: u2).getLast (by simp) :=
          ringPrev_middle s x (node :: y :: u2) v hnd2
        rw [getLast_cons_cons] at h1
        rw [getLast_cons_cons, getLast_cons_cons] at h2
        exact h1.trans h2.symm

theorem ringNext_decomp (L : List Nat) (s x : Nat) (u v : List Nat)
    (hnd : L.Nodup) (hL : L = s :: u ++ x :: v) : ringNext L x = v.headD s := by
  subst hL
  exact ringNext_middle s x u v hnd

theorem ringPrev_eq_of_ringNext (L : List Nat) (hnd : L.Nodup) (p x : Nat)
    (hp : p ∈ L) (h : ringNext L p = x) : ringPrev L x = p := by
  rw [← h]
  exact ringPrev_ringNext L hnd p hp

theorem wfRingSt_of_nxt (st : LinkSt) (L : List Nat) (hnd : L.Nodup)
    (h : ∀ x ∈ L, st.nxt x = ringNext L x)
    (hp : ∀ x ∈ L, st.prv (ringNext L x) = x) : wfRingSt st L := by
  refine ⟨hnd, fun x hx => ⟨h x hx, ?_⟩⟩
  have hpm : ringPrev L x ∈ L := ringPrev_mem L x hx
  have e := hp (ringPrev L x) hpm
  rw [ringNext_ringPrev L hnd x hx] at e
  exact e

theorem list_add_tail_wf (st : LinkSt) (s : Nat) (ns : List Nat) (node : Nat)
    (hw : wfRingSt st (s :: ns)) (hnode : node ∉ s :: ns) :
    wfRingSt (list_add_tail st node s) (s :: (ns ++ [node])) := by
  obtain ⟨hnd, hmem⟩ := hw
  have hsns : s ∉ ns := (List.nodup_cons.mp hnd).1
  have hndns : ns.Nodup := (List.nodup_cons.mp hnd).2
  have hnsne : node ≠ s := fun h => hnode (h ▸ List.mem_cons_self _ _)
  have hnns : node ∉ ns := fun h => hnode (List.mem_cons_of_mem _ h)
  have hnd2 : (s :: (ns ++ [node])).Nodup := by
    rw [List.nodup_cons, List.nodup_append]
    refine ⟨?_, hndns, List.nodup_singleton _, ?_⟩
    · intro h
      rcases List.mem_append.mp h with h2 | h2
      · exact hsns h2
      · exact hnsne (List.mem_singleton.mp h2).symm
    · intro a ha hb
      exact hnns ((List.mem_singleton.mp hb) ▸ ha)
  have hnxt : ∀ y, (list_add_tail st node s).nxt y =
      Function.update (Function.update st.nxt (st.prv s) node) node s y := fun _ => rfl
  have hprv : ∀ y, (list_add_tail st node s).prv y =
      Function.update (Function.update st.prv node (st.prv s)) s node y := fun _ => rfl
  refine wfRingSt_of_nxt _ _ hnd2 ?_ ?_
  · intro x hx
    rcases List.mem_cons.mp hx with rfl | hx2
    · rcases List.eq_nil_or_concat ns with rfl | ⟨w, b, hwb⟩
      · have hps : st.prv x = x := by
          have h1 : ringNext [x] x = x := by
            rw [ringNext_head x [] hnd]
            rfl
          rw [(hmem x (List.mem_cons_self _ _)).2]
          exact ringPrev_eq_of_ringNext _ hnd x x (List.mem_cons_self _ _) h1
        rw [hnxt, Function.update_noteq hnsne.symm, hps, Function.update_same,
          ringNext_head x ([] ++ [node]) hnd2]
        rfl
      · rw [List.concat_eq_append] at hwb
        subst hwb
        have hbmem : b ∈ x :: (w ++ [b]) :=
          List.mem_cons_of_mem _ (List.mem_append_right _ (List.mem_singleton_self _))
        have hnb : ringNext (x :: (w ++ [b])) b = x :=
          ringNext_decomp _ x b w [] hnd rfl
        have hps : st.prv x = b := by
          rw [(hmem x (List.mem_cons_self _ _)).2]
          exact ringPrev_eq_of_ringNext _ hnd b x hbmem hnb
        have hsb : x ≠ b :=
          fun h => hsns (h ▸ List.mem_append_right _ (List.mem_singleton_self _))
        rw [hnxt, Function.update_noteq hnsne.symm, hps, Function.update_noteq hsb,
          (hmem x (List.mem_cons_self _ _)).1, ringNext_head x (w ++ [b]) hnd,
          ringNext_head x ((w ++ [b]) ++ [node]) hnd2]
        cases w with
        | nil => rfl
        | cons c w2 => rfl
    rcases List.mem_append.mp hx2 with hx3 | hx4
    · obtain ⟨u, v, rfl⟩ := List.append_of_mem hx3
      have hxC : x ∈ s :: (u ++ x :: v) := List.mem_cons_of_mem _ hx3
      have hxs : x ≠ s := fun h => hsns (h ▸ hx3)
      have hxn : x ≠ node := fun h => hnns (h ▸ hx3)
      cases v with
      | nil =>
        have hnx : ringNext (s :: (u ++ x :: [])) x = s :=
          ringNext_decomp _ s x u [] hnd rfl
        have hxP : st.prv s = x := by
          rw [(hmem s (List.mem_cons_self _ _)).2]
          exact ringPrev_eq_of_ringNext _ hnd x s hxC hnx
        rw [hnxt, Function.update_noteq hxn, hxP, Function.update_same]
        exact (ringNext_decomp _ s x u [node] hnd2 (by simp)).symm
      | cons y v2 =>
        have hymem : y ∈ u ++ x :: y :: v2 :=
          List.mem_append_right _ (List.mem_cons_of_mem _ (List.mem_cons_self _ _))
        have hny : ringNext (s :: (u ++ x :: y :: v2)) x = y :=
          ringNext_decomp _ s x u (y :: v2) hnd rfl
        have hxPne : x ≠ st.prv s := by
          intro h
          have e2 : ringNext (s :: (u ++ x :: y :: v2)) (st.prv s) = s := by
            rw [(hmem s (List.mem_cons_self _ _)).2]
            exact ringNext_ringPrev _ hnd s (List.mem_cons_self _ _)
          rw [← h, hny] at e2
          exact hsns (e2 ▸ hymem)
        rw [hnxt, Function.update_noteq hxn, Function.update_noteq hxPne,
          (hmem x hxC).1, hny,
          ringNext_decomp _ s x u (y :: (v2 ++ [node])) hnd2 (by simp)]
        rfl
    · obtain rfl := List.mem_singleton.mp hx4
      rw [hnxt, Function.update_same,
        ringNext_decomp _ s x ns [] hnd2 (by simp)]
      rfl
  · intro x hx
    rcases List.mem_cons.mp hx with rfl | hx2
    · rw [ringNext_head x (ns ++ [node]) hnd2]
      cases ns with
      | nil =>
        show (list_add_tail st node x).prv node = x
        have hps : st.prv x = x := by
          have h1 : ringNext [x] x = x := by
            rw [ringNext_head x [] hnd]
            rfl
          rw [(hmem x (List.mem_cons_self _ _)).2]
          exact ringPrev_eq_of_ringNext _ hnd x x (List.mem_cons_self _ _) h1
        rw [hprv, Function.update_noteq hnsne, Function.update_same]
        exact hps
      | cons y t =>
        show (list_add_tail st node x).prv y = x
        have hymem : y ∈ y :: t := List.mem_cons_self _ _
        have hys : y ≠ x := fun h => hsns (h ▸ hymem)
        have hyn : y ≠ node := fun h => hnns (h ▸ hymem)
        have hny : ringNext (x :: y :: t) x = y := by
          rw [ringNext_head x (y :: t) hnd]
          rfl
        rw [hprv, Function.update_noteq hys, Function.update_noteq hyn,
          (hmem y (List.mem_cons_of_mem _ hymem)).2]
        exact ringPrev_eq_of_ringNext _ hnd x y (List.mem_cons_self _ _) hny
    rcases List.mem_append.mp hx2 with hx3 | hx4
    · obtain ⟨u, v, rfl⟩ := List.append_of_mem hx3
      have hxC : x ∈ s :: (u ++ x :: v) := List.mem_cons_of_mem _ hx3
      cases v with
      | nil =>
        rw [ringNext_decomp _ s x u [node] hnd2 (by simp)]
        show (list_add_tail st node s).prv node = x
        have hnx : ringNext (s :: (u ++ x :: [])) x = s :=
          ringNext_decomp _ s x u [] hnd rfl
        have hxP : st.prv s = x := by
          rw [(hmem s (List.mem_cons_self _ _)).2]
          exact ringPrev_eq_of_ringNext _ hnd x s hxC hnx
        rw [hprv, Function.update_noteq hnsne, Function.update_same]
        exact hxP
      | cons y v2 =>
        rw [ringNext_decomp _ s x u (y :: (v2 ++ [node])) hnd2 (by simp)]
        show (list_add_tail st node s).prv y = x
        have hymem : y ∈ u ++ x :: y :: v2 :=
          List.mem_append_right _ (List.mem_cons_of_mem _ (List.mem_cons_self _ _))
        have hys : y ≠ s := fun h => hsns (h ▸ hymem)
        have hyn : y ≠ node := fun h => hnns (h ▸ hymem)
        have hny : ringNext (s :: (u ++ x :: y :: v2)) x = y :=
          ringNext_decomp _ s x u (y :: v2) hnd rfl
        rw [hprv, Function.update_noteq hys, Function.update_noteq hyn,
          (hmem y (List.mem_cons_of_mem _ hymem)).2]
        exact ringPrev_eq_of_ringNext _ hnd x y hxC hny
    · obtain rfl := List.mem_singleton.mp hx4
      rw [ringNext_decomp _ s x ns [] hnd2 (by simp)]
      show (list_add_tail st x s).prv s = x
      rw [hprv, Function.update_same]

theorem wf_prv_eq (st : LinkSt) (L : List Nat) (hnd : L.Nodup)
    (hmem : ∀ x ∈ L, st.nxt x = ringNext L x ∧ st.prv x = ringPrev L x)
    (p x : Nat) (hx : x ∈ L) (hp : p ∈ L) (h : ringNext L p = x) : st.prv x = p := by
  rw [(hmem x hx).2]
  exact ringPrev_eq_of_ringNext L hnd p x hp h

theorem list_del_wf (st : LinkSt) (s d : Nat) (w r : List Nat)
    (hw : wfRingSt st (s :: (w ++ d :: r))) :
    wfRingSt (list_del st d) (s :: (w ++ r)) := by
  obtain ⟨hnd, hmem⟩ := hw
  have hsns : s ∉ w ++ d :: r := (List.nodup_cons.mp hnd).1
  have hndns : (w ++ d :: r).Nodup := (List.nodup_cons.mp hnd).2
  have hsplit := List.nodup_append.mp hndns
  have hwnd : w.Nodup := hsplit.1
  have hdr : (d :: r).Nodup := hsplit.2.1
  have hdisj : w.Disjoint (d :: r) := hsplit.2.2
  have hdw : d ∉ w := fun h => hdisj h (List.mem_cons_self _ _)
  have hdrr : d ∉ r := (List.nodup_cons.mp hdr).1
  have hrnd : r.Nodup := (List.nodup_cons.mp hdr).2
  have hsw : s ∉ w := fun h => hsns (List.mem_append_left _ h)
  have hsr : s ∉ r := fun h => hsns (List.mem_append_right _ (List.mem_cons_of_mem _ h))
  have hsd : s ≠ d := fun h => hsns (List.mem_append_right _ (h ▸ List.mem_cons_self _ _))
  have hdC : d ∈ s :: (w ++ d :: r) :=
    List.mem_cons_of_mem _ (List.mem_append_right _ (List.mem_cons_self _ _))
  have hN : st.nxt d = r.headD s := by
    rw [(hmem d hdC).1]
    exact ringNext_decomp _ s d w r hnd rfl
  have hPnext : ringNext (s :: (w ++ d :: r)) (st.prv d) = d := by
    rw [(hmem d hdC).2]
    exact ringNext_ringPrev _ hnd d hdC
  have hnd2 : (s :: (w ++ r)).Nodup := by
    rw [List.nodup_cons, List.nodup_append]
    refine ⟨?_, hwnd, hrnd, ?_⟩
    · intro h
      rcases List.mem_append.mp h with h2 | h2
      · exact hsw h2
      · exact hsr h2
    · intro a ha hb
      exact hdisj ha (List.mem_cons_of_mem _ hb)
  have hnxt2 : ∀ y, (list_del st d).nxt y =
      Function.update st.nxt (st.prv d) (st.nxt d) y := fun _ => rfl
  have hprv2 : ∀ y, (list_del st d).prv y =
      Function.update st.prv (st.nxt d) (st.prv d) y := fun _ => rfl
  refine wfRingSt_of_nxt _ _ hnd2 ?_ ?_
  · intro x hx
    rcases List.mem_cons.mp hx with rfl | hx2
    · cases w with
      | nil =>
        have hPs : st.prv d = x :=
          wf_prv_eq st _ hnd hmem x d hdC (List.mem_cons_self _ _)
            (by rw [ringNext_head x ([] ++ d :: r) hnd]; rfl)
        rw [hnxt2, hPs, Function.update_same, hN, ringNext_head x ([] ++ r) hnd2]
        rfl
      | cons c w2 =>
        have hcw : c ∈ c :: w2 := List.mem_cons_self _ _
        have hnxs : ringNext (x :: ((c :: w2) ++ d :: r)) x = c := by
          rw [ringNext_head x ((c :: w2) ++ d :: r) hnd]
          rfl
        have hsP : x ≠ st.prv d := by
          intro h
          rw [← h, hnxs] at hPnext
          exact hdw (hPnext ▸ hcw)
        rw [hnxt2, Function.update_noteq hsP, (hmem x (List.mem_cons_self _ _)).1, hnxs,
          ringNext_head x ((c :: w2) ++ r) hnd2]
        rfl
    rcases List.mem_append.mp hx2 with hx3 | hx4
    · obtain ⟨u, v, rfl⟩ := List.append_of_mem hx3
      have hxC : x ∈ s :: ((u ++ x :: v) ++ d :: r) :=
        List.mem_cons_of_mem _ (List.mem_append_left _ hx3)
      cases v with
      | nil =>
        have hnxx : ringNext (s :: ((u ++ x :: []) ++ d :: r)) x = d :=
          ringNext_decomp _ s x u (d :: r) hnd (by simp)
        have hPx : st.prv d = x := wf_prv_eq st _ hnd hmem x d hdC hxC hnxx
        rw [hnxt2, hPx, Function.update_same, hN,
          ringNext_decomp _ s x u r hnd2 (by simp)]
      | cons c v2 =>
        have hcw : c ∈ u ++ x :: c :: v2 :=
          List.mem_append_right _ (List.mem_cons_of_mem _ (List.mem_cons_self _ _))
        have hnxx : ringNext (s :: ((u ++ x :: c :: v2) ++ d :: r)) x = c :=
          ringNext_decomp _ s x u (c :: (v2 ++ d :: r)) hnd (by simp)
        have hcd : c ≠ d := fun h => hdw (h ▸ hcw)
        have hxP : x ≠ st.prv d := by
          intro h
          rw [← h, hnxx] at hPnext
          exact hcd hPnext
        rw [hnxt2, Function.update_noteq hxP, (hmem x hxC).1, hnxx,
          ringNext_decomp _ s x u (c :: (v2 ++ r)) hnd2 (by simp)]
        rfl
    · obtain ⟨u, v, rfl⟩ := List.append_of_mem hx4
      have hxC : x ∈ s :: (w ++ d :: (u ++ x :: v)) :=
        List.mem_cons_of_mem _
          (List.mem_append_right _ (List.mem_cons_of_mem _ hx4))
      have hnxx : ringNext (s :: (w ++ d :: (u ++ x :: v))) x = v.headD s :=
        ringNext_decomp _ s x (w ++ d :: u) v hnd (by simp)
      have hxP : x ≠ st.prv d := by
        intro h
        rw [← h, hnxx] at hPnext
        cases v with
        | nil => exact hsd hPnext
        | cons e v2 =>
          have hev : e ∈ u ++ x :: e :: v2 :=
            List.mem_append_right _ (List.mem_cons_of_mem _ (List.mem_cons_self _ _))
          exact hdrr (hPnext ▸ hev)
      rw [hnxt2, Function.update_noteq hxP, (hmem x hxC).1, hnxx,
        ringNext_decomp _ s x (w ++ u) v hnd2 (by simp)]
  · intro x hx
    rcases List.mem_cons.mp hx with rfl | hx2
    · cases w with
      | nil =>
        have hPs : st.prv d = x :=
          wf_prv_eq st _ hnd hmem x d hdC (List.mem_cons_self _ _)
            (by rw [ringNext_head x ([] ++ d :: r) hnd]; rfl)
        rw [ringNext_head x ([] ++ r) hnd2]
        show (list_del st d).prv (r.headD x) = x
        rw [hprv2, ← hN, Function.update_same]
        exact hPs
      | cons c w2 =>
        have hcw : c ∈ c :: w2 := List.mem_cons_self _ _
        have hcs : c ≠ x := fun h => hsw (h ▸ hcw)
        rw [ringNext_head x ((c :: w2) ++ r) hnd2]
        show (list_del st d).prv c = x
        have hcN : c ≠ st.nxt d := by
          rw [hN]
          cases r with
          | nil => exact hcs
          | cons e r2 =>
            exact fun h => hdisj hcw (List.mem_cons_of_mem _ (h ▸ List.mem_cons_self _ _))
        rw [hprv2, Function.update_noteq hcN]
        exact wf_prv_eq st _ hnd hmem x c
          (List.mem_cons_of_mem _ (List.mem_append_left _ hcw)) (List.mem_cons_self _ _)
          (by rw [ringNext_head x ((c :: w2) ++ d :: r) hnd]; rfl)
    rcases List.mem_append.mp hx2 with hx3 | hx4
    · obtain ⟨u, v, rfl⟩ := List.append_of_mem hx3
      have hxC : x ∈ s :: ((u ++ x :: v) ++ d :: r) :=
        List.mem_cons_of_mem _ (List.mem_append_left _ hx3)
      cases v with
      | nil =>
        have hnxx : ringNext (s :: ((u ++ x :: []) ++ d :: r)) x = d :=
          ringNext_decomp _ s x u (d :: r) hnd (by simp)
        have hPx : st.prv d = x := wf_prv_eq st _ hnd hmem x d hdC hxC hnxx
        rw [ringNext_decomp _ s x u r hnd2 (by simp), hprv2, ← hN, Function.update_same]
        exact hPx
      | cons c v2 =>
        have hcw : c ∈ u ++ x :: c :: v2 :=
          List.mem_append_right _ (List.mem_cons_of_mem _ (List.mem_cons_self _ _))
        have hcC : c ∈ s :: ((u ++ x :: c :: v2) ++ d :: r) :=
          List.mem_cons_of_mem _ (List.mem_append_left _ hcw)
        have hnxx : ringNext (s :: ((u ++ x :: c :: v2) ++ d :: r)) x = c :=
          ringNext_decomp _ s x u (c :: (v2 ++ d :: r)) hnd (by simp)
        have hcN : c ≠ st.nxt d := by
          rw [hN]
          cases r with
          | nil => exact fun h => hsw (h ▸ hcw)
          | cons e r2 =>
            exact fun h => hdisj hcw (List.mem_cons_of_mem _ (h ▸ List.mem_cons_self _ _))
        rw [ringNext_decomp _ s x u (c :: (v2 ++ r)) hnd2 (by simp)]
        show (list_del st d).prv c = x
        rw [hprv2, Function.update_noteq hcN]
        exact wf_prv_eq st _ hnd hmem x c hcC hxC hnxx
    · obtain ⟨u, v, rfl⟩ := List.append_of_mem hx4
      have hxr : x ∈ u ++ x :: v := hx4
      have hxC : x ∈ s :: (w ++ d :: (u ++ x :: v)) :=
        List.mem_cons_of_mem _
          (List.mem_append_right _ (List.mem_cons_of_mem _ hx4))
      cases v with
      | nil =>
        rw [ringNext_decomp _ s x (w ++ u) [] hnd2 (by simp)]
        show (list_del st d).prv s = x
        have hsN : s ≠ st.nxt d := by
          rw [hN]
          cases u with
          | nil => exact fun h => hsr (h ▸ hxr)
          | cons e u2 =>
            exact fun h => hsr (h ▸ List.mem_append_left _ (List.mem_cons_self _ _))
        rw [hprv2, Function.update_noteq hsN]
        exact wf_prv_eq st _ hnd hmem x s (List.mem_cons_self _ _) hxC
          (ringNext_decomp _ s x (w ++ d :: u) [] hnd (by simp))
      | cons c v2 =>
        have hcr : c ∈ u ++ x :: c :: v2 :=
          List.mem_append_right _ (List.mem_cons_of_mem _ (List.mem_cons_self _ _))
        have hcC : c ∈ s :: (w ++ d :: (u ++ x :: c :: v2)) :=
          List.mem_cons_of_mem _
            (List.mem_append_right _ (List.mem_cons_of_mem _ hcr))
        have hnxx : ringNext (s :: (w ++ d :: (u ++ x :: c :: v2))) x = c :=
          ringNext_decomp _ s x (w ++ d :: u) (c :: v2) hnd (by simp)
        have hcN : c ≠ st.nxt d := by
          rw [hN]
          cases u with
          | nil =>
            intro h
            have := List.nodup_cons.mp hrnd
            exact this.1 (h ▸ List.mem_cons_self _ _)
          | cons e u2 =>
            intro h
            have h2 := List.nodup_append.mp hrnd
            exact h2.2.2 (List.mem_cons_self _ _)
              (h ▸ List.mem_cons_of_mem _ (List.mem_cons_self _ _))
        rw [ringNext_decomp _ s x (w ++ u) (c :: v2) hnd2 (by simp)]
        show (list_del st d).prv c = x
        rw [hprv2, Function.update_noteq hcN]
        exact wf_prv_eq st _ hnd hmem x c hcC hxC hnxx

theorem list_move_wf (st : LinkSt) (s dh x : Nat) (w r : List Nat)
    (hw : wfRingSt st (s :: (w ++ x :: r))) (hdh : dh ∉ s :: (w ++ x :: r))
    (hdn : st.nxt dh = dh) (hdp : st.prv dh = dh) :
    wfRingSt (list_move st x dh) (s :: (w ++ r)) ∧
    wfRingSt (list_move st x dh) (dh :: [x]) := by
  obtain ⟨hnd, hmem⟩ := hw
  have hxC : x ∈ s :: (w ++ x :: r) :=
    List.mem_cons_of_mem _ (List.mem_append_right _ (List.mem_cons_self _ _))
  have hxdh : x ≠ dh := fun h => hdh (h ▸ hxC)
  have hsns : s ∉ w ++ x :: r := (List.nodup_cons.mp hnd).1
  have hndns : (w ++ x :: r).Nodup := (List.nodup_cons.mp hnd).2
  have hsplit := List.nodup_append.mp hndns
  have hxw : x ∉ w := fun h => hsplit.2.2 h (List.mem_cons_self _ _)
  have hxr : x ∉ r := (List.nodup_cons.mp hsplit.2.1).1
  have hPC : st.prv x ∈ s :: (w ++ x :: r) := by
    rw [(hmem x hxC).2]
    exact ringPrev_mem _ _ hxC
  have hNC : st.nxt x ∈ s :: (w ++ x :: r) := by
    rw [(hmem x hxC).1]
    exact ringNext_mem _ _ hxC
  have hd1n : (list_del st x).nxt dh = dh := by
    show Function.update st.nxt (st.prv x) (st.nxt x) dh = dh
    rw [Function.update_noteq (fun h => hdh (by rw [h]; exact hPC)), hdn]
  have hd1p : (list_del st x).prv dh = dh := by
    show Function.update st.prv (st.nxt x) (st.prv x) dh = dh
    rw [Function.update_noteq (fun h => hdh (by rw [h]; exact hNC)), hdp]
  have hxC2 : x ∉ s :: (w ++ r) := by
    intro h
    rcases List.mem_cons.mp h with h2 | h2
    · exact hsns (by rw [← h2]; exact List.mem_append_right _ (List.mem_cons_self _ _))
    · rcases List.mem_append.mp h2 with h3 | h3
      · exact hxw h3
      · exact hxr h3
  have hw1 : wfRingSt (list_del st x) (s :: (w ++ r)) := list_del_wf st s x w r ⟨hnd, hmem⟩
  constructor
  · refine wfRingSt_congr _ _ _ hw1 ?_
    intro y hy
    have hyx : y ≠ x := fun h => hxC2 (h ▸ hy)
    have hyC : y ∈ s :: (w ++ x :: r) := by
      rcases List.mem_cons.mp hy with rfl | h2
      · exact List.mem_cons_self _ _
      · rcases List.mem_append.mp h2 with h3 | h3
        · exact List.mem_cons_of_mem _ (List.mem_append_left _ h3)
        · exact List.mem_cons_of_mem _
            (List.mem_append_right _ (List.mem_cons_of_mem _ h3))
    have hydh : y ≠ dh := fun h => hdh (h ▸ hyC)
    constructor
    · show Function.update
          (Function.update (list_del st x).nxt x ((list_del st x).nxt dh)) dh x y
        = (list_del st x).nxt y
      rw [Function.update_noteq hydh, Function.update_noteq hyx]
    · show Function.update
          (Function.update (list_del st x).prv ((list_del st x).nxt dh) x) x dh y
        = (list_del st x).prv y
      rw [Function.update_noteq hyx, hd1n, Function.update_noteq hydh]
  · have hw2 : wfRingSt (list_del st x) [dh] := by
      refine ⟨List.nodup_singleton _, ?_⟩
      intro y hy
      obtain rfl := List.mem_singleton.mp hy
      constructor
      · rw [hd1n, ringNext_head y [] (List.nodup_singleton _)]
        rfl
      · rw [hd1p]
        have h1 : ringNext [y] y = y := by
          rw [ringNext_head y [] (List.nodup_singleton _)]
          rfl
        exact (ringPrev_eq_of_ringNext [y] (List.nodup_singleton _) y y
          (List.mem_singleton_self _) h1).symm
    exact list_add_head_wf (list_del st x) dh [] x hw2 (by simp [hxdh])

theorem swapPair_wf (st : LinkSt) (s a b : Nat) (A rest : List Nat)
    (hw : wfRingSt st (s :: (A ++ a :: b :: rest))) :
    wfRingSt (swapPair st a) (s :: (A ++ b :: a :: rest)) := by
  obtain ⟨hnd, hmem⟩ := hw
  have hsns : s ∉ A ++ a :: b :: rest := (List.nodup_cons.mp hnd).1
  have hndns : (A ++ a :: b :: rest).Nodup := (List.nodup_cons.mp hnd).2
  have hsplit := List.nodup_append.mp hndns
  have habr : (a :: b :: rest).Nodup := hsplit.2.1
  have hdisj : A.Disjoint (a :: b :: rest) := hsplit.2.2
  have hab : a ≠ b := fun h => (List.nodup_cons.mp habr).1 (h ▸ List.mem_cons_self _ _)
  have harest : a ∉ rest := fun h =>
    (List.nodup_cons.mp habr).1 (List.mem_cons_of_mem _ h)
  have hbrest : b ∉ rest := (List.nodup_cons.mp (List.nodup_cons.mp habr).2).1
  have hrestnd : rest.Nodup := (List.nodup_cons.mp (List.nodup_cons.mp habr).2).2
  have haA : a ∉ A := fun h => hdisj h (List.mem_cons_self _ _)
  have hbA : b ∉ A := fun h => hdisj h (List.mem_cons_of_mem _ (List.mem_cons_self _ _))
  have hsA : s ∉ A := fun h => hsns (List.mem_append_left _ h)
  have hsa : s ≠ a := fun h =>
    hsns (by rw [h]; exact List.mem_append_right _ (List.mem_cons_self _ _))
  have hsb : s ≠ b := fun h => hsns (by
    rw [h]
    exact List.mem_append_right _ (List.mem_cons_of_mem _ (List.mem_cons_self _ _)))
  have hsrest : s ∉ rest := fun h =>
    hsns (List.mem_append_right _ (List.mem_cons_of_mem _ (List.mem_cons_of_mem _ h)))
  have haC : a ∈ s :: (A ++ a :: b :: rest) :=
    List.mem_cons_of_mem _ (List.mem_append_right _ (List.mem_cons_self _ _))
  have hbC : b ∈ s :: (A ++ a :: b :: rest) :=
    List.mem_cons_of_mem _
      (List.mem_append_right _ (List.mem_cons_of_mem _ (List.mem_cons_self _ _)))
  have hsC : s ∈ s :: (A ++ a :: b :: rest) := List.mem_cons_self _ _
  have hb2 : st.nxt a = b := by
    rw [(hmem a haC).1]
    exact ringNext_decomp _ s a A (b :: rest) hnd (by simp)
  have hNb : st.nxt b = rest.headD s := by
    rw [(hmem b hbC).1]
    exact ringNext_decomp _ s b (A ++ [a]) rest hnd (by simp)
  have hPnext : ringNext (s :: (A ++ a :: b :: rest)) (st.prv a) = a := by
    rw [(hmem a haC).2]
    exact ringNext_ringPrev _ hnd a haC
  have hbP : b ≠ st.prv a := by
    intro h
    rw [← h, ringNext_decomp _ s b (A ++ [a]) rest hnd (by simp)] at hPnext
    cases rest with
    | nil => exact hsa hPnext
    | cons m r2 => exact harest (by rw [← hPnext]; exact List.mem_cons_self _ _)
  have hNa : a ≠ rest.headD s := by
    cases rest with
    | nil => exact fun h => hsa h.symm
    | cons m r2 => exact fun h => harest (by rw [h]; exact List.mem_cons_self _ _)
  have hNb2 : rest.headD s ≠ b := by
    cases rest with
    | nil => exact fun h => hsb h
    | cons m r2 => exact fun h => hbrest (by rw [← h]; exact List.mem_cons_self _ _)
  have hIN : Function.update st.nxt (st.prv a) (st.nxt a) (st.nxt a) = rest.headD s := by
    rw [hb2, Function.update_noteq hbP]
    exact hNb
  have hfn : ∀ y, (swapPair st a).nxt y =
      Function.update (Function.update (Function.update st.nxt (st.prv a) b) a
        (rest.headD s)) b a y := by
    intro y
    show Function.update (Function.update (Function.update st.nxt (st.prv a) (st.nxt a)) a
        (Function.update st.nxt (st.prv a) (st.nxt a) (st.nxt a))) (st.nxt a) a y = _
    rw [hIN, hb2]
  have hPA : Function.update st.prv
      (Function.update st.nxt (st.prv a) (st.nxt a) (st.nxt a)) a a = st.prv a := by
    rw [hIN]
    exact Function.update_noteq hNa _ _
  have hfp : ∀ y, (swapPair st a).prv y =
      Function.update (Function.update (Function.update st.prv (rest.headD s) a) b
        (st.prv a)) a b y := by
    intro y
    show Function.update (Function.update (Function.update st.prv
        (Function.update st.nxt (st.prv a) (st.nxt a) (st.nxt a)) a) (st.nxt a)
        (Function.update st.prv
          (Function.update st.nxt (st.prv a) (st.nxt a) (st.nxt a)) a a)) a (st.nxt a) y = _
    rw [hPA, hIN, hb2]
  have hperm : (s :: (A ++ a :: b :: rest)).Perm (s :: (A ++ b :: a :: rest)) :=
    List.Perm.cons s (List.Perm.append_left A (List.Perm.swap b a rest))
  have hnd2 : (s :: (A ++ b :: a :: rest)).Nodup := hperm.nodup hnd
  refine wfRingSt_of_nxt _ _ hnd2 ?_ ?_
  · intro x hx
    rcases List.mem_cons.mp hx with hxs | hx2
    · rw [hxs]
      cases A with
      | nil =>
        have hPs : st.prv a = s :=
          wf_prv_eq st _ hnd hmem s a haC hsC
            (by rw [ringNext_head s ([] ++ a :: b :: rest) hnd]; rfl)
        rw [hfn, Function.update_noteq hsb, Function.update_noteq hsa, hPs,
          Function.update_same, ringNext_head s ([] ++ b :: a :: rest) hnd2]
        rfl
      | cons c A2 =>
        have hcA : c ∈ c :: A2 := List.mem_cons_self _ _
        have hnxs : ringNext (s :: ((c :: A2) ++ a :: b :: rest)) s = c := by
          rw [ringNext_head s ((c :: A2) ++ a :: b :: rest) hnd]
          rfl
        have hsP : s ≠ st.prv a := by
          intro h
          rw [← h, hnxs] at hPnext
          exact haA (by rw [← hPnext]; exact hcA)
        rw [hfn, Function.update_noteq hsb, Function.update_noteq hsa,
          Function.update_noteq hsP, (hmem s hsC).1, hnxs,
          ringNext_head s ((c :: A2) ++ b :: a :: rest) hnd2]
        rfl
    rcases List.mem_append.mp hx2 with hx3 | hx4
    · obtain ⟨u, v, rfl⟩ := List.append_of_mem hx3
      have hxA : x ∈ u ++ x :: v := hx3
      have hxa : x ≠ a := fun h => haA (by rw [← h]; exact hxA)
      have hxb : x ≠ b := fun h => hbA (by rw [← h]; exact hxA)
      have hxC : x ∈ s :: ((u ++ x :: v) ++ a :: b :: rest) :=
        List.mem_cons_of_mem _ (List.mem_append_left _ hxA)
      cases v with
      | nil =>
        have hnxx : ringNext (s :: ((u ++ x :: []) ++ a :: b :: rest)) x = a :=
          ringNext_decomp _ s x u (a :: (b :: rest)) hnd (by simp)
        have hPx : st.prv a = x := wf_prv_eq st _ hnd hmem x a haC hxC hnxx
        rw [hfn, Function.update_noteq hxb, Function.update_noteq hxa, hPx,
          Function.update_same,
          ringNext_decomp _ s x u (b :: (a :: rest)) hnd2 (by simp)]
        rfl
      | cons c v2 =>
        have hcA : c ∈ u ++ x :: c :: v2 :=
          List.mem_append_right _ (List.mem_cons_of_mem _ (List.mem_cons_self _ _))
        have hnxx : ringNext (s :: ((u ++ x :: c :: v2) ++ a :: b :: rest)) x = c :=
          ringNext_decomp _ s x u (c :: (v2 ++ a :: b :: rest)) hnd (by simp)
        have hca : c ≠ a := fun h => haA (by rw [← h]; exact hcA)
        have hxP : x ≠ st.prv a := by
          intro h
          rw [← h, hnxx] at hPnext
          exact hca hPnext
        rw [hfn, Function.update_noteq hxb, Function.update_noteq hxa,
          Function.update_noteq hxP, (hmem x hxC).1, hnxx,
          ringNext_decomp _ s x u (c :: (v2 ++ b :: a :: rest)) hnd2 (by simp)]
        rfl
    rcases List.mem_cons.mp hx4 with hxb | hx5
    · rw [hxb, hfn, Function.update_same]
      exact (ringNext_decomp _ s b A (a :: rest) hnd2 (by simp)).symm
    rcases List.mem_cons.mp hx5 with hxa | hx6
    · rw [hxa, hfn, Function.update_noteq hab, Function.update_same]
      exact (ringNext_decomp _ s a (A ++ [b]) rest hnd2 (by simp)).symm
    · obtain ⟨u, v, rfl⟩ := List.append_of_mem hx6
      have hxr : x ∈ u ++ x :: v := hx6
      have hxa : x ≠ a := fun h => harest (by rw [← h]; exact hxr)
      have hxb : x ≠ b := fun h => hbrest (by rw [← h]; exact hxr)
      have hxC : x ∈ s :: (A ++ a :: b :: (u ++ x :: v)) :=
        List.mem_cons_of_mem _ (List.mem_append_right _
          (List.mem_cons_of_mem _ (List.mem_cons_of_mem _ hxr)))
      have hnxx : ringNext (s :: (A ++ a :: b :: (u ++ x :: v))) x = v.headD s :=
        ringNext_decomp _ s x (A ++ a :: b :: u) v hnd (by simp)
      have hxP : x ≠ st.prv a := by
        intro h
        rw [← h, hnxx] at hPnext
        cases v with
        | nil => exact hsa hPnext
        | cons m v2 =>
          exact harest (by
            rw [← hPnext]
            exact List.mem_append_right _
              (List.mem_cons_of_mem _ (List.mem_cons_self _ _)))
      rw [hfn, Function.update_noteq hxb, Function.update_noteq hxa,
        Function.update_noteq hxP, (hmem x hxC).1, hnxx,
        ringNext_decomp _ s x (A ++ b :: a :: u) v hnd2 (by simp)]
  · intro x hx
    rcases List.mem_cons.mp hx with hxs | hx2
    · rw [hxs]
      cases A with
      | nil =>
        have hPs : st.prv a = s :=
          wf_prv_eq st _ hnd hmem s a haC hsC
            (by rw [ringNext_head s ([] ++ a :: b :: rest) hnd]; rfl)
        rw [ringNext_head s ([] ++ b :: a :: rest) hnd2]
        show (swapPair st a).prv b = s
        rw [hfp, Function.update_noteq hab.symm, Function.update_same]
        exact hPs
      | cons c A2 =>
        have hcA : c ∈ c :: A2 := List.mem_cons_self _ _
        have hcC : c ∈ s :: ((c :: A2) ++ a :: b :: rest) :=
          List.mem_cons_of_mem _ (List.mem_append_left _ hcA)
        have hca : c ≠ a := fun h => haA (by rw [← h]; exact hcA)
        have hcb : c ≠ b := fun h => hbA (by rw [← h]; exact hcA)
        have hcN : c ≠ rest.headD s := by
          cases rest with
          | nil =>
            intro h
            have h3 : c = s := h
            exact hsA (by rw [← h3]; exact hcA)
          | cons m r2 =>
            exact fun h => hdisj hcA (List.mem_cons_of_mem _
              (List.mem_cons_of_mem _ (by rw [h]; exact List.mem_cons_self _ _)))
        rw [ringNext_head s ((c :: A2) ++ b :: a :: rest) hnd2]
        show (swapPair st a).prv c = s
        rw [hfp, Function.update_noteq hca, Function.update_noteq hcb,
          Function.update_noteq hcN]
        exact wf_prv_eq st _ hnd hmem s c hcC hsC
          (by rw [ringNext_head s ((c :: A2) ++ a :: b :: rest) hnd]; rfl)
    rcases List.mem_append.mp hx2 with hx3 | hx4
    · obtain ⟨u, v, rfl⟩ := List.append_of_mem hx3
      have hxA : x ∈ u ++ x :: v := hx3
      have hxC : x ∈ s :: ((u ++ x :: v) ++ a :: b :: rest) :=
        List.mem_cons_of_mem _ (List.mem_append_left _ hxA)
      cases v with
      | nil =>
        have hnxx : ringNext (s :: ((u ++ x :: []) ++ a :: b :: rest)) x = a :=
          ringNext_decomp _ s x u (a :: (b :: rest)) hnd (by simp)
        have hPx : st.prv a = x := wf_prv_eq st _ hnd hmem x a haC hxC hnxx
        rw [ringNext_decomp _ s x u (b :: (a :: rest)) hnd2 (by simp)]
        show (swapPair st a).prv b = x
        rw [hfp, Function.update_noteq hab.symm, Function.update_same]
        exact hPx
      | cons c v2 =>
        have hcA : c ∈ u ++ x :: c :: v2 :=
          List.mem_append_right _ (List.mem_cons_of_mem _ (List.mem_cons_self _ _))
        have hcC : c ∈ s :: ((u ++ x :: c :: v2) ++ a :: b :: rest) :=
          List.mem_cons_of_mem _ (List.mem_append_left _ hcA)
        have hca : c ≠ a := fun h => haA (by rw [← h]; exact hcA)
        have hcb : c ≠ b := fun h => hbA (by rw [← h]; exact hcA)
        have hcN : c ≠ rest.headD s := by
          cases rest with
          | nil =>
            intro h
            have h3 : c = s := h
            exact hsA (by rw [← h3]; exact hcA)
          | cons m r2 =>
            exact fun h => hdisj hcA (List.mem_cons_of_mem _
              (List.mem_cons_of_mem _ (by rw [h]; exact List.mem_cons_self _ _)))
        have hnxx : ringNext (s :: ((u ++ x :: c :: v2) ++ a :: b :: rest)) x = c :=
          ringNext_decomp _ s x u (c :: (v2 ++ a :: b :: rest)) hnd (by simp)
        rw [ringNext_decomp _ s x u (c :: (v2 ++ b :: a :: rest)) hnd2 (by simp)]
        show (swapPair st a).prv c = x
        rw [hfp, Function.update_noteq hca, Function.update_noteq hcb,
          Function.update_noteq hcN]
        exact wf_prv_eq st _ hnd hmem x c hcC hxC hnxx
    rcases List.mem_cons.mp hx4 with hxb | hx5
    · rw [hxb, ringNext_decomp _ s b A (a :: rest) hnd2 (by simp)]
      show (swapPair st a).prv a = b
      rw [hfp, Function.update_same]
    rcases List.mem_cons.mp hx5 with hxa | hx6
    · rw [hxa, ringNext_decomp _ s a (A ++ [b]) rest hnd2 (by simp)]
      rw [hfp, Function.update_noteq hNa.symm, Function.update_noteq hNb2,
        Function.update_same]
    · obtain ⟨u, v, rfl⟩ := List.append_of_mem hx6
      have hxr : x ∈ u ++ x :: v := hx6
      have hxC : x ∈ s :: (A ++ a :: b :: (u ++ x :: v)) :=
        List.mem_cons_of_mem _ (List.mem_append_right _
          (List.mem_cons_of_mem _ (List.mem_cons_of_mem _ hxr)))
      cases v with
      | nil =>
        have hsN : s ≠ (u ++ x :: []).headD s := by
          cases u with
          | nil =>
            intro h
            have h3 : s = x := h
            exact hsrest (by rw [h3]; exact hxr)
          | cons e u2 =>
            intro h
            have h3 : s = e := h
            exact hsrest (by rw [h3]; exact List.mem_append_left _ (List.mem_cons_self _ _))
        rw [ringNext_decomp _ s x (A ++ b :: a :: u) [] hnd2 (by simp)]
        show (swapPair st a).prv s = x
        rw [hfp, Function.update_noteq hsa, Function.update_noteq hsb,
          Function.update_noteq hsN]
        exact wf_prv_eq st _ hnd hmem x s hsC hxC
          (ringNext_decomp _ s x (A ++ a :: b :: u) [] hnd (by simp))
      | cons c v2 =>
        have hcr : c ∈ u ++ x :: c :: v2 :=
          List.mem_append_right _ (List.mem_cons_of_mem _ (List.mem_cons_self _ _))
        have hcC : c ∈ s :: (A ++ a :: b :: (u ++ x :: c :: v2)) :=
          List.mem_cons_of_mem _ (List.mem_append_right _
            (List.mem_cons_of_mem _ (List.mem_cons_of_mem _ hcr)))
        have hca : c ≠ a := fun h => harest (by rw [← h]; exact hcr)
        have hcb : c ≠ b := fun h => hbrest (by rw [← h]; exact hcr)
        have hcN : c ≠ (u ++ x :: c :: v2).headD s := by
          cases u with
          | nil =>
            intro h
            have h3 : c = x := h
            have h2 := List.nodup_cons.mp hrestnd
            exact h2.1 (by rw [← h3]; exact List.mem_cons_self _ _)
          | cons e u2 =>
            intro h
            have h3 : c = e := h
            have h2 := List.nodup_append.mp hrestnd
            exact h2.2.2 (List.mem_cons_self _ _)
              (by rw [← h3]; exact List.mem_cons_of_mem _ (List.mem_cons_self _ _))
        have hnxx : ringNext (s :: (A ++ a :: b :: (u ++ x :: c :: v2))) x = c :=
          ringNext_decomp _ s x (A ++ a :: b :: u) (c :: v2) hnd (by simp)
        rw [ringNext_decomp _ s x (A ++ b :: a :: u) (c :: v2) hnd2 (by simp)]
        show (swapPair st a).prv c = x
        rw [hfp, Function.update_noteq hca, Function.update_noteq hcb,
          Function.update_noteq hcN]
        exact wf_prv_eq st _ hnd hmem x c hcC hxC hnxx

theorem q_swapLoop_spec (s : Nat) : ∀ (fuel : Nat) (a b : Nat) (rest A : List Nat)
    (st : LinkSt), wfRingSt st (s :: (A ++ a :: b :: rest)) →
    rest.length ≤ 2 * fuel →
    wfRingSt (q_swapLoop st s a (fuel + 1)) (s :: (A ++ q_swapL (a :: b :: rest))) := by
  intro fuel
  induction fuel with
  | zero =>
    intro a b rest A st hw hlen
    have hrest : rest = [] := List.length_eq_zero.mp (Nat.le_zero.mp hlen)
    subst hrest
    have hw2 := swapPair_wf st s a b A [] hw
    have haC2 : a ∈ s :: (A ++ b :: a :: []) := by simp
    have hl2 : (swapPair st a).nxt a = s := by
      rw [(hw2.2 a haC2).1]
      exact ringNext_decomp _ s a (A ++ [b]) [] hw2.1 (by simp)
    have hstep : q_swapLoop st s a (0 + 1) =
        (if (swapPair st a).nxt a = s ∨
            (swapPair st a).nxt ((swapPair st a).nxt a) = s
          then swapPair st a
          else q_swapLoop (swapPair st a) s ((swapPair st a).nxt a) 0) := rfl
    rw [hstep, if_pos (Or.inl hl2)]
    exact hw2
  | succ f ih =>
    intro a b rest A st hw hlen
    have hw2 := swapPair_wf st s a b A rest hw
    have haC2 : a ∈ s :: (A ++ b :: a :: rest) := by simp
    have hl2 : (swapPair st a).nxt a = rest.headD s := by
      rw [(hw2.2 a haC2).1]
      exact ringNext_decomp _ s a (A ++ [b]) rest hw2.1 (by simp)
    have hstep : q_swapLoop st s a (f + 1 + 1) =
        (if (swapPair st a).nxt a = s ∨
            (swapPair st a).nxt ((swapPair st a).nxt a) = s
          then swapPair st a
          else q_swapLoop (swapPair st a) s ((swapPair st a).nxt a) (f + 1)) := rfl
    cases rest with
    | nil =>
      have hl2s : (swapPair st a).nxt a = s := hl2
      rw [hstep, if_pos (Or.inl hl2s)]
      exact hw2
    | cons m rtail =>
      have hl2m : (swapPair st a).nxt a = m := hl2
      cases rtail with
      | nil =>
        have hmC2 : m ∈ s :: (A ++ b :: a :: [m]) := by simp
        have hr2 : (swapPair st a).nxt m = s := by
          rw [(hw2.2 m hmC2).1]
          exact ringNext_decomp _ s m (A ++ b :: a :: []) [] hw2.1 (by simp)
        rw [hstep, hl2m, if_pos (Or.inr hr2)]
        exact hw2
      | cons m2 rest2 =>
        have hmC2 : m ∈ s :: (A ++ b :: a :: m :: m2 :: rest2) := by simp
        have hr2 : (swapPair st a).nxt m = m2 := by
          rw [(hw2.2 m hmC2).1]
          exact ringNext_decomp _ s m (A ++ b :: a :: []) (m2 :: rest2) hw2.1 (by simp)
        have hsns2 : s ∉ A ++ b :: a :: m :: m2 :: rest2 := (List.nodup_cons.mp hw2.1).1
        have hms : m ≠ s := fun h => hsns2 (by rw [← h]; simp)
        have hm2s : m2 ≠ s := fun h => hsns2 (by rw [← h]; simp)
        rw [hstep, hl2m, hr2, if_neg (by simp [hms, hm2s])]
        have hw2b : wfRingSt (swapPair st a)
            (s :: ((A ++ [b, a]) ++ m :: m2 :: rest2)) := by
          rw [show (A ++ [b, a]) ++ m :: m2 :: rest2 = A ++ b :: a :: m :: m2 :: rest2
            by simp]
          exact hw2
        have hres := ih m m2 rest2 (A ++ [b, a]) (swapPair st a) hw2b (by
          simp only [List.length_cons] at hlen
          omega)
        rw [show A ++ q_swapL (a :: b :: m :: m2 :: rest2)
            = (A ++ [b, a]) ++ q_swapL (m :: m2 :: rest2) by
          rw [show q_swapL (a :: b :: m :: m2 :: rest2)
              = b :: a :: q_swapL (m :: m2 :: rest2) from rfl]
          simp]
        exact hres

theorem q_swapSt_wf (st : LinkSt) (s : Nat) (ns : List Nat)
    (hw : wfRingSt st (s :: ns)) :
    wfRingSt (q_swapSt st s ns.length) (s :: q_swapL ns) := by
  obtain ⟨hnd, hmem⟩ := hw
  cases ns with
  | nil =>
    have h1 : st.nxt s = s := by
      rw [(hmem s (List.mem_cons_self _ _)).1, ringNext_head s [] hnd]
      rfl
    have h2 : st.prv s = s :=
      wf_prv_eq st _ hnd hmem s s (List.mem_cons_self _ _) (List.mem_cons_self _ _)
        (by rw [ringNext_head s [] hnd]; rfl)
    simp only [q_swapSt]
    rw [if_pos (h1.trans h2.symm)]
    exact ⟨hnd, hmem⟩
  | cons a tl =>
    cases tl with
    | nil =>
      have h1 : st.nxt s = a := by
        rw [(hmem s (List.mem_cons_self _ _)).1, ringNext_head s [a] hnd]
        rfl
      have h2 : st.prv s = a :=
        wf_prv_eq st _ hnd hmem a s (List.mem_cons_self _ _) (by simp)
          (ringNext_decomp _ s a [] [] hnd rfl)
      simp only [q_swapSt]
      rw [if_pos (h1.trans h2.symm)]
      exact ⟨hnd, hmem⟩
    | cons b rest =>
      have hsns : s ∉ a :: b :: rest := (List.nodup_cons.mp hnd).1
      have hnxs : st.nxt s = a := by
        rw [(hmem s (List.mem_cons_self _ _)).1, ringNext_head s (a :: b :: rest) hnd]
        rfl
      have hprvnext : ringNext (s :: a :: b :: rest) (st.prv s) = s := by
        rw [(hmem s (List.mem_cons_self _ _)).2]
        exact ringNext_ringPrev _ hnd s (List.mem_cons_self _ _)
      have hguard : st.nxt s ≠ st.prv s := by
        intro h
        rw [← h, hnxs, ringNext_decomp _ s a [] (b :: rest) hnd rfl] at hprvnext
        have h3 : b = s := hprvnext
        exact hsns (by rw [← h3]; simp)
      simp only [q_swapSt]
      rw [if_neg hguard, hnxs]
      exact q_swapLoop_spec s (rest.length + 1) a b rest [] st ⟨hnd, hmem⟩ (by omega)

theorem chainSucc_spec (z e : Nat) : ∀ (u t : List Nat), e ∉ u →
    chainSucc (u ++ e :: t) z e = t.headD z := by
  intro u
  induction u with
  | nil =>
    intro t _
    cases t with
    | nil => rfl
    | cons y t2 => simp [chainSucc]
  | cons a u2 ih =>
    intro t he
    have hea : e ≠ a := fun h => he (by rw [h]; exact List.mem_cons_self _ _)
    have he2 : e ∉ u2 := fun h => he (List.mem_cons_of_mem _ h)
    cases u2 with
    | nil =>
      show chainSucc (a :: e :: t) z e = t.headD z
      rw [show chainSucc (a :: e :: t) z e
          = if e = a then e else chainSucc (e :: t) z e from rfl, if_neg hea]
      exact ih t he2
    | cons a2 u3 =>
      show chainSucc (a :: a2 :: (u3 ++ e :: t)) z e = t.headD z
      rw [show chainSucc (a :: a2 :: (u3 ++ e :: t)) z e
          = if e = a then a2 else chainSucc (a2 :: (u3 ++ e :: t)) z e from rfl,
        if_neg hea]
      exact ih t he2

theorem repairLoop_go (s z : Nat) : ∀ (rest pre ms : List Nat) (st : LinkSt) (e : Nat),
    ms = pre ++ rest →
    (s :: ms).Nodup → z ∉ s :: ms →
    ((pre = [] ∧ e = s) ∨ (∃ w, pre = w ++ [e])) →
    (∀ x ∈ s :: ms, st.nxt x = chainSucc (s :: ms) z x) →
    (∀ x ∈ pre, st.prv x = ringPrev (s :: ms) x) →
    wfRingSt (repairLoop st s z e (rest.length + 1)) (s :: ms) := by
  intro rest
  induction rest with
  | nil =>
    intro pre ms st e hms hnd hz hpos hnxt hprv
    rw [List.append_nil] at hms
    subst hms
    rcases hpos with ⟨rfl, he⟩ | ⟨w, rfl⟩
    · rw [he]
      have hnE : st.nxt s = z := by
        rw [hnxt s (List.mem_cons_self _ _)]
        rfl
      have hstep : repairLoop st s z s (([] : List Nat).length + 1) =
          (if st.nxt s = z then
            (⟨Function.update st.nxt s s, Function.update st.prv s s⟩ : LinkSt)
          else repairLoop ⟨st.nxt, Function.update st.prv (st.nxt s) s⟩ s z (st.nxt s) 0)
          := rfl
      rw [hstep, if_pos hnE]
      refine ⟨hnd, ?_⟩
      intro x hx
      rcases List.mem_cons.mp hx with hxs | hx2
      · rw [hxs]
        constructor
        · show Function.update st.nxt s s s = ringNext [s] s
          rw [Function.update_same, ringNext_head s [] hnd]
          rfl
        · show Function.update st.prv s s s = ringPrev [s] s
          rw [Function.update_same]
          exact (ringPrev_eq_of_ringNext [s] hnd s s (List.mem_singleton_self _)
            (by rw [ringNext_head s [] hnd]; rfl)).symm
      · exact absurd hx2 (List.not_mem_nil x)
    · have hsns : s ∉ w ++ [e] := (List.nodup_cons.mp hnd).1
      have hwend : (w ++ [e]).Nodup := (List.nodup_cons.mp hnd).2
      have hwnd : w.Nodup := (List.nodup_append.mp hwend).1
      have hew : e ∉ w :=
        fun h => (List.nodup_append.mp hwend).2.2 h (List.mem_singleton_self _)
      have heC : e ∈ s :: (w ++ [e]) :=
        List.mem_cons_of_mem _ (List.mem_append_right _ (List.mem_singleton_self _))
      have hes : e ≠ s := fun h =>
        hsns (by rw [← h]; exact List.mem_append_right _ (List.mem_singleton_self _))
      have hesw : e ∉ s :: w := by
        intro h
        rcases List.mem_cons.mp h with h2 | h2
        · exact hes h2
        · exact hew h2
      have hnE : st.nxt e = z := by
        rw [hnxt e heC, show s :: (w ++ [e]) = (s :: w) ++ e :: [] by simp]
        exact chainSucc_spec z e (s :: w) [] hesw
      have hstep : repairLoop st s z e (([] : List Nat).length + 1) =
          (if st.nxt e = z then
            (⟨Function.update st.nxt e s, Function.update st.prv s e⟩ : LinkSt)
          else repairLoop ⟨st.nxt, Function.update st.prv (st.nxt e) e⟩ s z (st.nxt e) 0)
          := rfl
      rw [hstep, if_pos hnE]
      have hnES : ringNext (s :: (w ++ [e])) e = s :=
        ringNext_decomp _ s e w [] hnd (by simp)
      refine wfRingSt_of_nxt _ _ hnd ?_ ?_
      · intro x hx
        by_cases hxe : x = e
        · rw [hxe]
          show Function.update st.nxt e s e = ringNext (s :: (w ++ [e])) e
          rw [Function.update_same, hnES]
        · show Function.update st.nxt e s x = ringNext (s :: (w ++ [e])) x
          rw [Function.update_noteq hxe, hnxt x hx]
          rcases List.mem_cons.mp hx with hxs | hx2
          · rw [hxs]
            have h5 : chainSucc (s :: (w ++ [e])) z s = (w ++ [e]).headD z :=
              chainSucc_spec z s [] (w ++ [e]) (List.not_mem_nil _)
            rw [h5, ringNext_head s (w ++ [e]) hnd]
            cases w with
            | nil => rfl
            | cons c w2 => rfl
          · rcases List.mem_append.mp hx2 with hx3 | hx3
            · obtain ⟨u, v, rfl⟩ := List.append_of_mem hx3
              have hxs2 : x ≠ s := fun h =>
                hsns (List.mem_append_left _ (by rw [← h]; exact hx3))
              have hxu : x ∉ u :=
                fun h => (List.nodup_append.mp hwnd).2.2 h (List.mem_cons_self _ _)
              have hxsu : x ∉ s :: u := by
                intro h
                rcases List.mem_cons.mp h with h2 | h2
                · exact hxs2 h2
                · exact hxu h2
              have h5 : chainSucc (s :: ((u ++ x :: v) ++ [e])) z x
                  = (v ++ [e]).headD z := by
                rw [show s :: ((u ++ x :: v) ++ [e]) = (s :: u) ++ x :: (v ++ [e])
                  by simp]
                exact chainSucc_spec z x (s :: u) (v ++ [e]) hxsu
              rw [h5, ringNext_decomp _ s x u (v ++ [e]) hnd (by simp)]
              cases v with
              | nil => rfl
              | cons c v2 => rfl
            · exact absurd (List.mem_singleton.mp hx3) hxe
      · intro x hx
        by_cases hxe : x = e
        · rw [hxe, hnES]
          show Function.update st.prv s e s = e
          rw [Function.update_same]
        · have hbC : ringNext (s :: (w ++ [e])) x ∈ s :: (w ++ [e]) := ringNext_mem _ _ hx
          have hbs : ringNext (s :: (w ++ [e])) x ≠ s := by
            intro h
            have h7 := ringPrev_ringNext _ hnd x hx
            rw [h] at h7
            have h8 := ringPrev_eq_of_ringNext _ hnd e s heC hnES
            exact hxe (h7.symm.trans h8)
          show Function.update st.prv s e (ringNext (s :: (w ++ [e])) x) = x
          rw [Function.update_noteq hbs]
          have hbpre : ringNext (s :: (w ++ [e])) x ∈ w ++ [e] := by
            rcases List.mem_cons.mp hbC with h9 | h9
            · exact absurd h9 hbs
            · exact h9
          rw [hprv _ hbpre]
          exact ringPrev_ringNext _ hnd x hx
  | cons y rest2 ih =>
    intro pre ms st e hms hnd hz hpos hnxt hprv
    subst hms
    have hyC : y ∈ s :: (pre ++ y :: rest2) :=
      List.mem_cons_of_mem _ (List.mem_append_right _ (List.mem_cons_self _ _))
    have hyz : y ≠ z := fun h => hz (by rw [← h]; exact hyC)
    have heC : e ∈ s :: (pre ++ y :: rest2) := by
      rcases hpos with ⟨rfl, he⟩ | ⟨w, rfl⟩
      · rw [he]
        exact List.mem_cons_self _ _
      · exact List.mem_cons_of_mem _ (List.mem_append_left _
          (List.mem_append_right _ (List.mem_singleton_self _)))
    have hnE : st.nxt e = y := by
      rw [hnxt e heC]
      rcases hpos with ⟨rfl, he⟩ | ⟨w, rfl⟩
      · rw [he]
        have h5 : chainSucc (s :: ([] ++ y :: rest2)) z s = (y :: rest2).headD z :=
          chainSucc_spec z s [] (y :: rest2) (List.not_mem_nil _)
        exact h5
      · have hsns : s ∉ (w ++ [e]) ++ y :: rest2 := (List.nodup_cons.mp hnd).1
        have hndns : ((w ++ [e]) ++ y :: rest2).Nodup := (List.nodup_cons.mp hnd).2
        have hwend : (w ++ [e]).Nodup := (List.nodup_append.mp hndns).1
        have hew : e ∉ w :=
          fun h => (List.nodup_append.mp hwend).2.2 h (List.mem_singleton_self _)
        have hes : e ≠ s := fun h => hsns (by
          rw [← h]
          exact List.mem_append_left _ (List.mem_append_right _ (List.mem_singleton_self _)))
        have hesw : e ∉ s :: w := by
          intro h
          rcases List.mem_cons.mp h with h2 | h2
          · exact hes h2
          · exact hew h2
        have h5 : chainSucc (s :: ((w ++ [e]) ++ y :: rest2)) z e
            = (y :: rest2).headD z := by
          rw [show s :: ((w ++ [e]) ++ y :: rest2) = (s :: w) ++ e :: (y :: rest2) by simp]
          exact chainSucc_spec z e (s :: w) (y :: rest2) hesw
        exact h5
    have hnE2 : ringNext (s :: (pre ++ y :: rest2)) e = y := by
      rcases hpos with ⟨rfl, he⟩ | ⟨w, rfl⟩
      · rw [he, ringNext_head s ([] ++ y :: rest2) hnd]
        rfl
      · exact ringNext_decomp _ s e w (y :: rest2) hnd (by simp)
    have hstep : repairLoop st s z e ((y :: rest2).length + 1) =
        (if st.nxt e = z then
          (⟨Function.update st.nxt e s, Function.update st.prv s e⟩ : LinkSt)
        else repairLoop ⟨st.nxt, Function.update st.prv (st.nxt e) e⟩ s z (st.nxt e)
          (rest2.length + 1)) := rfl
    rw [hstep, if_neg (by rw [hnE]; exact hyz), hnE]
    refine ih (pre ++ [y]) (pre ++ y :: rest2) _ y (by simp) hnd hz
      (Or.inr ⟨pre, rfl⟩) ?_ ?_
    · intro x hx
      exact hnxt x hx
    · intro x hx
      rcases List.mem_append.mp hx with hx2 | hx2
      · have hxy : x ≠ y := fun h =>
          (List.nodup_append.mp (List.nodup_cons.mp hnd).2).2.2 hx2
            (by rw [h]; exact List.mem_cons_self _ _)
        show Function.update st.prv y e x = ringPrev (s :: (pre ++ y :: rest2)) x
        rw [Function.update_noteq hxy]
        exact hprv x hx2
      · rw [List.mem_singleton.mp hx2]
        show Function.update st.prv y e y = ringPrev (s :: (pre ++ y :: rest2)) y
        rw [Function.update_same]
        exact (ringPrev_eq_of_ringNext _ hnd e y heC hnE2).symm

theorem repairLoop_wf (st : LinkSt) (s z : Nat) (ms : List Nat)
    (hnd : (s :: ms).Nodup) (hz : z ∉ s :: ms)
    (hnxt : ∀ x ∈ s :: ms, st.nxt x = chainSucc (s :: ms) z x) :
    wfRingSt (repairLoop st s z s (ms.length + 1)) (s :: ms) :=
  repairLoop_go s z ms [] ms st s rfl hnd hz (Or.inl ⟨rfl, rfl⟩) hnxt
    (fun x hx => absurd hx (List.not_mem_nil x))

/-- C6: every queue operation preserves the well-formed ring invariant of
spec section 3. On a well-formed ring with sentinel `s` and node cycle
`s :: ns`, the pointer writes each operation performs leave a well-formed
ring of the expected cycle: `q_insert_head` links a fresh node right after
the sentinel (`list_add`, `queue.c:74`) and `q_insert_tail` right before it
(`list_add_tail`, `queue.c:105`); `q_remove_head` and `q_remove_tail` unlink
`head->next` and `head->prev` (`list_del`, `queue.c:132`, `155`);
`q_delete_mid` unlinks an arbitrary node (`queue.c:215`); `q_delete_dup`
moves a node onto the fresh scratch ring `dh` (`list_move`, `queue.c:250`),
leaving both the main ring and the scratch ring well formed; `q_swap` runs
its six-write pair-swap loop (`queue.c:278-291`); `q_reverse` runs its
next/prev exchange loop (`queue.c:308-314`); after `mergesort` has returned
any reordering `ms` of the nodes as a `next`-chain ending in the null marker
`z` (with all `prev` fields arbitrary), the repair pass of `q_sort`
(`queue.c:370-373`) rebuilds every `prev` link and closes the ring; and on a
well-formed ring every reachable node `n` satisfies `n.next.prev = n` and
`n.prev.next = n`, the ring being circular through the sentinel. -/
theorem queue_ops_preserve_ring_invariant
    (st : LinkSt) (s : Nat) (ns : List Nat) (hw : wfRingSt st (s :: ns)) :
    (∀ node, node ∉ s :: ns → wfRingSt (list_add st node s) (s :: node :: ns)) ∧
    (∀ node, node ∉ s :: ns →
      wfRingSt (list_add_tail st node s) (s :: (ns ++ [node]))) ∧
    (∀ x r, ns = x :: r → wfRingSt (list_del st (st.nxt s)) (s :: r)) ∧
    (∀ w x, ns = w ++ [x] → wfRingSt (list_del st (st.prv s)) (s :: w)) ∧
    (∀ w x r, ns = w ++ x :: r → wfRingSt (list_del st x) (s :: (w ++ r))) ∧
    (∀ w x r dh, ns = w ++ x :: r → dh ∉ s :: ns → st.nxt dh = dh → st.prv dh = dh →
      wfRingSt (list_move st x dh) (s :: (w ++ r)) ∧
      wfRingSt (list_move st x dh) (dh :: [x])) ∧
    wfRingSt (q_swapSt st s ns.length) (s :: q_swapL ns) ∧
    (ns ≠ [] → wfRingSt (q_reverseSt st s (s :: ns).length) (s :: ns.reverse)) ∧
    (∀ z ms st2, ms.Perm ns → z ∉ s :: ms →
      (∀ x, x ∈ s :: ms → st2.nxt x = chainSucc (s :: ms) z x) →
      wfRingSt (repairLoop st2 s z s (ms.length + 1)) (s :: ms)) ∧
    (∀ x, x ∈ s :: ns → st.prv (st.nxt x) = x ∧ st.nxt (st.prv x) = x) := by
  refine ⟨?_, ?_, ?_, ?_, ?_, ?_, ?_, ?_, ?_, ?_⟩
  · intro node hnode
    exact list_add_head_wf st s ns node hw hnode
  · intro node hnode
    exact list_add_tail_wf st s ns node hw hnode
  · intro x r hr
    subst hr
    have hnxs : st.nxt s = x := by
      rw [(hw.2 s (List.mem_cons_self _ _)).1, ringNext_head s (x :: r) hw.1]
      rfl
    rw [hnxs]
    exact list_del_wf st s x [] r hw
  · intro w x hwx
    subst hwx
    have hxC : x ∈ s :: (w ++ [x]) :=
      List.mem_cons_of_mem _ (List.mem_append_right _ (List.mem_singleton_self _))
    have hprvs : st.prv s = x :=
      wf_prv_eq st _ hw.1 hw.2 x s (List.mem_cons_self _ _) hxC
        (ringNext_decomp _ s x w [] hw.1 (by simp))
    rw [hprvs]
    have h2 := list_del_wf st s x w [] hw
    rw [List.append_nil] at h2
    exact h2
  · intro w x r hwx
    subst hwx
    exact list_del_wf st s x w r hw
  · intro w x r dh hwx hdh hdn hdp
    subst hwx
    exact list_move_wf st s dh x w r hw hdh hdn hdp
  · exact q_swapSt_wf st s ns hw
  · intro hne
    rw [q_reverseSt_eq_swapOn st s ns hw.1 hw.2 hne]
    exact wfRingSt_swapOn st s ns hw
  · intro z ms st2 hperm hz hnxt
    have hperm2 : (s :: ns).Perm (s :: ms) := List.Perm.cons s hperm.symm
    have hnd2 : (s :: ms).Nodup := hperm2.nodup hw.1
    exact repairLoop_wf st2 s z ms hnd2 hz hnxt
  · intro x hx
    constructor
    · rw [(hw.2 x hx).1]
      have h1 : ringNext (s :: ns) x ∈ s :: ns := ringNext_mem _ _ hx
      rw [(hw.2 _ h1).2]
      exact ringPrev_ringNext _ hw.1 x hx
    · rw [(hw.2 x hx).2]
      have h1 : ringPrev (s :: ns) x ∈ s :: ns := ringPrev_mem _ _ hx
      rw [(hw.2 _ h1).1]
      exact ringNext_ringPrev _ hw.1 x hx

/-- Witness: on the concrete three-node ring `revSt0` (sentinel `0`, nodes
`1, 2`), every conjunct of the invariant theorem is exercised with its
hypotheses discharged by computation: head and tail insertion of the fresh
node `9`, removal of `head->next` and `head->prev`, unlinking of node `1`,
moving node `1` to the scratch ring `8`, the pair-swap loop, the reverse
loop, the sort repair pass run on the permuted chain `0 -> 2 -> 1 -> z` with
all `prev` fields scrambled to `5`, and the two-sided pointer identity at
node `1`. -/
theorem queue_ops_preserve_ring_invariant_witness :
    wfRingSt revSt0 (0 :: [1, 2]) ∧
    wfRingSt (list_add revSt0 9 0) (0 :: 9 :: [1, 2]) ∧
    wfRingSt (list_add_tail revSt0 9 0) (0 :: ([1, 2] ++ [9])) ∧
    wfRingSt (list_del revSt0 (revSt0.nxt 0)) (0 :: [2]) ∧
    wfRingSt (list_del revSt0 (revSt0.prv 0)) (0 :: [1]) ∧
    wfRingSt (list_del revSt0 1) (0 :: ([] ++ [2])) ∧
    wfRingSt (list_move revSt0 1 8) (0 :: ([] ++ [2])) ∧
    wfRingSt (list_move revSt0 1 8) (8 :: [1]) ∧
    wfRingSt (q_swapSt revSt0 0 2) (0 :: q_swapL [1, 2]) ∧
    wfRingSt (q_reverseSt revSt0 0 3) (0 :: [2, 1]) ∧
    wfRingSt (repairLoop
      ⟨fun x => if x = 0 then 2 else if x = 2 then 1 else if x = 1 then 7 else x,
        fun _ => 5⟩ 0 7 0 3) (0 :: [2, 1]) ∧
    (revSt0.prv (revSt0.nxt 1) = 1 ∧ revSt0.nxt (revSt0.prv 1) = 1) := by
  have hwf : wfRingSt revSt0 (0 :: [1, 2]) := by
    unfold wfRingSt
    decide
  have H := queue_ops_preserve_ring_invariant revSt0 0 [1, 2] hwf
  have hmv := H.2.2.2.2.2.1 [] 1 [2] 8 rfl (by decide) (by decide) (by decide)
  exact ⟨hwf, H.1 9 (by decide), H.2.1 9 (by decide),
    H.2.2.1 1 [2] rfl, H.2.2.2.1 [1] 2 rfl, H.2.2.2.2.1 [] 1 [2] rfl,
    hmv.1, hmv.2, H.2.2.2.2.2.2.1,
    H.2.2.2.2.2.2.2.1 (by decide),
    H.2.2.2.2.2.2.2.2.1 7 [2, 1]
      ⟨fun x => if x = 0 then 2 else if x = 2 then 1 else if x = 1 then 7 else x,
        fun _ => 5⟩ (List.Perm.swap 1 2 []) (by decide) (by decide),
    H.2.2.2.2.2.2.2.2.2 1 (by decide)⟩
